import Mathlib

/-!
Verification development for the all-media catalog tool
(`src/all_media_adder.py`).

The Python module is shallowly embedded below.  Python strings are
modelled as Lean `String`s, with the handful of string operations the
source uses (`strip`, `startswith`, `casefold`, `in`, `split(' ', 1)`,
lexicographic comparison) defined explicitly over the underlying
character lists so that every definition is executable and every
concrete instance can be settled by `decide`/`rfl`.

Python dicts keep insertion order, so the catalog
(`dict[str, list[MediaEntry]]`) is an ordered association list; the
`title -> entry` dict built inside `add_entry` is likewise an ordered
association list with last-write-wins update.  In-place mutation of
entry dicts (the `entry['series_sort'] = i` writes) is modelled by
rebuilding the category list with the written fields replaced; entry
objects are identified by their `title` field, which is faithful within
one category because member titles are the keys of that very dict and
the duplicate-title check has already excluded the incoming title.

Interactive prompts (`inquirer.prompt`) are modelled by answer
parameters of type `Option _`: `none` is the user cancelling the prompt
(`inquirer.prompt` returning `None`, which the source turns into a
`UserCancel` exception), `some a` is a completed prompt with answers
`a`.  A prompt parameter is simply ignored on paths where the source
never issues that prompt.
-/

/-- One catalog item, mirroring the `MediaEntry` TypedDict of the source. -/
structure MediaEntry where
  title : String
  series : String
  series_sort : Int
  title_override : Option String
deriving DecidableEq, Repr

/-- The in-memory catalog `dict[str, list[MediaEntry]]`: an insertion-ordered
mapping from category name to the sequence of its entries. -/
abbrev Catalog := List (String × List MediaEntry)

/-- Answers collected by the first `inquirer.prompt` call of `add_entry`.
The `category` field is consulted only when the category question was asked
(empty `category` argument); `title_override` is consulted only when
`include_title_override` is set, matching `answers.get('title_override', '')`. -/
structure FirstAnswers where
  category : String
  title : String
  title_override : String
deriving DecidableEq, Repr

/-- Outcome of one `add_entry` call.  `added` is the `(category, new_entry)`
return value; `alreadyExists` is the early `return` after printing
`Already exists.`; `invalidTitle` models the title prompt rejecting input
that fails its `len(s.strip()) > 0` validator; `cancelled` is the
`UserCancel` exception; `keyError` and `valueError` are the exceptions
Python would raise on a missing category key or a placement answer that is
none of the offered choices (unreachable for a conforming prompt provider). -/
inductive AddResult where
  | added (category : String) (entry : MediaEntry)
  | alreadyExists
  | invalidTitle
  | cancelled
  | keyError
  | valueError
deriving DecidableEq, Repr

/-- Python `str.strip()` (restricted to ASCII whitespace). -/
def pyStrip (s : String) : String :=
  String.mk (((s.data.dropWhile Char.isWhitespace).reverse.dropWhile Char.isWhitespace).reverse)

/-- Python `s.startswith(p)`. -/
def pyStartsWith (s p : String) : Bool :=
  p.data.isPrefixOf s.data

/-- Python `needle in hay` substring test. -/
def pyContains (hay needle : String) : Bool :=
  (List.range (hay.data.length + 1)).any (fun i => needle.data.isPrefixOf (hay.data.drop i))

/-- Python `str.casefold` (restricted to its ASCII fragment, where it agrees
with lower-casing). -/
def pyCaseFold (s : String) : String :=
  String.mk (s.data.map Char.toLower)

/-- Python `s.split(' ', 1)` in the case where `s` contains a space:
the part before the first space and the part after it. -/
def splitAtFirstSpace (s : String) : String × String :=
  (String.mk (s.data.takeWhile (fun c => c ≠ ' ')),
   String.mk ((s.data.dropWhile (fun c => c ≠ ' ')).drop 1))

/-- Python string `<=`: lexicographic comparison by code point, with a
proper prefix comparing below. -/
def pyLe : List Char → List Char → Bool
  | [], _ => true
  | _ :: _, [] => false
  | a :: as, b :: bs => if a < b then true else if b < a then false else pyLe as bs

/-- Lookup in an insertion-ordered mapping (`d[k]`, with `none` for a
`KeyError`). -/
def lookupCat : Catalog → String → Option (List MediaEntry)
  | [], _ => none
  | p :: ps, k => if p.1 = k then some p.2 else lookupCat ps k

/-- Replacement of the value stored under an existing key, modelling in-place
mutation of `d[k]`. -/
def setCat (d : Catalog) (k : String) (v : List MediaEntry) : Catalog :=
  d.map (fun p => if p.1 = k then (k, v) else p)

/-- Python `list.insert(n, a)` (the index is clamped to the list length,
exactly as in Python). -/
def insertAt (n : Nat) (a : α) (l : List α) : List α :=
  l.take n ++ a :: l.drop n

/-- Python `list.index` as an option: the first index holding `t`. -/
def listIndex : List String → String → Option Nat
  | [], _ => none
  | x :: xs, t => if x = t then some 0 else (listIndex xs t).map (· + 1)

/-- Lookup in the `title -> entry` dict of `add_entry`. -/
def lookupTM : List (String × MediaEntry) → String → Option MediaEntry
  | [], _ => none
  | p :: ps, k => if p.1 = k then some p.2 else lookupTM ps k

/-- Python dict update `m[k] = v`: overwrite in place when the key exists,
append otherwise. -/
def dictInsert (m : List (String × MediaEntry)) (k : String) (v : MediaEntry) :
    List (String × MediaEntry) :=
  if m.any (fun p => p.1 = k) then m.map (fun p => if p.1 = k then (k, v) else p)
  else m ++ [(k, v)]

/-- The dict comprehension building `title_to_entry_map`. -/
def buildTitleMap (es : List MediaEntry) : List (String × MediaEntry) :=
  es.foldl (fun m e => dictInsert m e.title e) []

/-- Python stable sort `entries.sort(key=lambda d: d['series_sort'])`.  The
output of a stable sort is uniquely determined by the comparator and the
input, so the stable insertion sort used here agrees with the stable sort of
the Python runtime. -/
def sortBySeriesSort (es : List MediaEntry) : List MediaEntry :=
  List.insertionSort (fun a b => a.series_sort ≤ b.series_sort) es

/-- The renumbering loop `for i, entry_title in enumerate(series_titles)`,
started at index `i`.  The first component collects, in loop order, the
`entry['series_sort'] = i` writes to existing member entries (identified by
title); the second component is the value the loop leaves in the local
`series_sort` variable (for the position where the title is not a dict key,
i.e. the incoming entry), `none` when the loop never assigns it. -/
def assignFrom (titleMap : List (String × MediaEntry)) :
    Nat → List String → List (String × Int) × Option Int
  | _, [] => ([], none)
  | i, t :: ts =>
    let rest := assignFrom titleMap (i + 1) ts
    match lookupTM titleMap t with
    | none => (rest.1, rest.2.orElse (fun _ => some (Int.ofNat i)))
    | some _ => ((t, Int.ofNat i) :: rest.1, rest.2)

/-- Replay, on one entry, the sequence of `entry['series_sort'] = i` writes
(matched by title, later writes overriding earlier ones). -/
def writesFold (writes : List (String × Int)) (e : MediaEntry) : MediaEntry :=
  writes.foldl (fun cur w => if w.1 = cur.title then { cur with series_sort := w.2 } else cur) e

/-- Replay the `series_sort` writes on one entry of the category list.  Only
member entries of the affected series are written through the dict (whose
values are exactly those members), so entries of other series are untouched. -/
def applySortWrites (series : String) (writes : List (String × Int)) (e : MediaEntry) :
    MediaEntry :=
  if e.series = series then writesFold writes e else e

/-- The distinct `series` values of a category, in first-appearance order
(the source collects them into a Python set; only the resulting set matters). -/
def distinctSeries (entries : List MediaEntry) : List String :=
  entries.foldl (fun acc e => if acc.contains e.series then acc else acc ++ [e.series]) []

/-- The match of `re.compile(r'^([^\\(]+)')` against a series name: the
longest nonempty leading run of characters that are neither a backslash nor
an opening parenthesis, `none` when the name starts with such a character
(or is empty) and the regex does not match. -/
def seriesRegexMatch (name : String) : Option String :=
  let run := name.data.takeWhile (fun c => c ≠ '\\' ∧ c ≠ '(')
  if run = [] then none else some (String.mk run)

/-- The `possible_franchises` list comprehension of `handle_series`: existing
series names whose regex-extracted leading run occurs inside the new title. -/
def possible_franchises (title : String) (entries : List MediaEntry) : List String :=
  (distinctSeries entries).filter (fun s =>
    match seriesRegexMatch s with
    | some p => pyContains title p
    | none => false)

/-- The `handle_series` function.  `seriesAnswer` answers the series choice
list (offered only when `possible_franchises` is nonempty, with the sentinel
choices `NONE` and `CUSTOM` appended); `customAnswer` answers the free-text
series prompt (reached when no candidates existed or `CUSTOM` was picked).
`none` as the overall result is the `UserCancel` exception. -/
def handle_series (title : String) (categoryEntries : List MediaEntry)
    (seriesAnswer customAnswer : Option String) : Option String :=
  let pf := possible_franchises title categoryEntries
  let afterChoice : Option (Option String) :=
    if pf = [] then some none
    else
      match seriesAnswer with
      | none => none
      | some choice =>
        if choice = "NONE" then some (some title)
        else if choice = "CUSTOM" then some none
        else some (some choice)
  match afterChoice with
  | none => none
  | some (some s) => some s
  | some none =>
    match customAnswer with
    | none => none
    | some s => some (if s = "" then title else s)

/-- Resolution of the category: `category = category or answers['category'].strip()`. -/
def resolveCategory (category : String) (answers : FirstAnswers) : String :=
  if category = "" then pyStrip answers.category else category

/-- Resolution of the series: `if not series: series = handle_series(...)`. -/
def resolveSeries (series title : String) (categoryEntries : List MediaEntry)
    (seriesAnswer customAnswer : Option String) : Option String :=
  if series = "" then handle_series title categoryEntries seriesAnswer customAnswer
  else some series

/-- The placement `if`/`elif`/`else` of `add_entry`, producing the re-derived
title list: insert at the front for `At the start`, append for `At the end`,
and otherwise insert right after the chosen existing title
(`series_titles.index(placement) + 1`); `none` is the `ValueError` raised by
`list.index` when the placement answer is not an offered title. -/
def placementNewTitles (title placement : String) (series_titles : List String) :
    Option (List String) :=
  if placement = "At the start" then some (title :: series_titles)
  else if placement = "At the end" then some (series_titles ++ [title])
  else (listIndex series_titles placement).map (fun p => insertAt (p + 1) title series_titles)

/-- The `add_entry` function.  `firstAnswers` answers the initial prompt
(category choice when `category` is empty, title, and title override when
`includeTitleOverride`); the remaining three parameters answer the prompts
of `handle_series` and the placement choice list, in source order.  The
result pairs the outcome with the catalog as left behind by the call. -/
def add_entry (jsonData : Catalog) (category series : String)
    (includeTitleOverride : Bool)
    (firstAnswers : Option FirstAnswers)
    (seriesAnswer customAnswer placementAnswer : Option String) :
    AddResult × Catalog :=
  match firstAnswers with
  | none => (.cancelled, jsonData)
  | some answers =>
    if pyStrip answers.title = "" then (.invalidTitle, jsonData)
    else
      let category := resolveCategory category answers
      let title := pyStrip answers.title
      let rawOverride := if includeTitleOverride then answers.title_override else ""
      let title_override := if pyStrip rawOverride = "" then none else some (pyStrip rawOverride)
      match lookupCat jsonData category with
      | none => (.keyError, jsonData)
      | some existing_category =>
        if existing_category.any (fun e => e.title = title) then (.alreadyExists, jsonData)
        else
          match resolveSeries series title existing_category seriesAnswer customAnswer with
          | none => (.cancelled, jsonData)
          | some series =>
            if series = "" then
              let newEntry : MediaEntry := ⟨title, series, 0, title_override⟩
              (.added category newEntry,
               setCat jsonData category (existing_category ++ [newEntry]))
            else
              let existing_series :=
                sortBySeriesSort (existing_category.filter (fun e => e.series = series))
              if existing_series = [] then
                let newEntry : MediaEntry := ⟨title, series, 0, title_override⟩
                (.added category newEntry,
                 setCat jsonData category (existing_category ++ [newEntry]))
              else
                let titleMap := buildTitleMap existing_series
                let series_titles := titleMap.map (fun p => p.1)
                match placementAnswer with
                | none => (.cancelled, jsonData)
                | some placement =>
                  match placementNewTitles title placement series_titles with
                  | none => (.valueError, jsonData)
                  | some newTitles =>
                    let assigned := assignFrom titleMap 0 newTitles
                    let series_sort := assigned.2.getD 0
                    let newEntry : MediaEntry := ⟨title, series, series_sort, title_override⟩
                    let renumbered := existing_category.map (applySortWrites series assigned.1)
                    (.added category newEntry,
                     setCat jsonData category (renumbered ++ [newEntry]))

/-- The display title of a rendered member:
`entry.get('title_override') or entry['title']`. -/
def displayTitle (e : MediaEntry) : String :=
  match e.title_override with
  | some t => if t = "" then e.title else t
  | none => e.title

/-- The leading-article normalization applied by `create_markdown` (both in
the group sort key and on each emitted display title): when the title starts
with the literal `The `, `A ` or `An `, split at the first space and move the
article to the end after a comma. -/
def articleNormalize (title : String) : String :=
  if pyStartsWith title "The " || pyStartsWith title "A " || pyStartsWith title "An " then
    (splitAtFirstSpace title).2 ++ ", " ++ (splitAtFirstSpace title).1
  else title

/-- The representative title read by `title_to_sort_by` after the in-place
sort of the group: `group[0].get('series') or group[0]['title']`.  Groups are
nonempty by construction; the empty case is vacuous. -/
def groupKeyTitle (g : List MediaEntry) : String :=
  match sortBySeriesSort g with
  | [] => ""
  | e :: _ => if e.series = "" then e.title else e.series

/-- The group sort key of `create_markdown`: the representative title,
article-normalized and case-folded. -/
def title_to_sort_by (g : List MediaEntry) : String :=
  pyCaseFold (articleNormalize (groupKeyTitle g))

/-- One step of the grouping loop
`series_groups.setdefault(entry['series'], []).append(entry)`. -/
def addToGroups (gs : List (String × List MediaEntry)) (e : MediaEntry) :
    List (String × List MediaEntry) :=
  if gs.any (fun p => p.1 = e.series) then
    gs.map (fun p => if p.1 = e.series then (p.1, p.2 ++ [e]) else p)
  else gs ++ [(e.series, [e])]

/-- The `series_groups` dict of one category, as its list of values in key
insertion order. -/
def series_groups (entries : List MediaEntry) : List (List MediaEntry) :=
  (entries.foldl addToGroups []).map (fun p => p.2)

/-- The `sorted(series_groups.values(), key=title_to_sort_by)` call.  The key
function first sorts each group in place by `series_sort` (visible in the
emitted output), then the groups are ordered stably by the case-folded key,
compared as Python compares strings (lexicographically by code point); a
stable sort is uniquely determined by comparator and input. -/
def sorted_series (entries : List MediaEntry) : List (List MediaEntry) :=
  List.insertionSort
    (fun g1 g2 => pyLe (title_to_sort_by g1).data (title_to_sort_by g2).data = true)
    ((series_groups entries).map sortBySeriesSort)

/-- The bullet lines collected for one category: for every member of every
sorted group, in order, the article-normalized display title. -/
def categoryLines (entries : List MediaEntry) : List String :=
  ((sorted_series entries).map (fun g => g.map (fun e => articleNormalize (displayTitle e)))).flatten

/-- The text written by `create_markdown`: top-level heading, then one
section per category holding at least one line (the `defaultdict` only
acquires keys on the first append), with a bullet line per member and a
blank line after each category. -/
def create_markdown (jsonData : Catalog) : String :=
  let category_titles := (jsonData.map (fun p => (p.1, categoryLines p.2))).filter
    (fun p => ¬ p.2.isEmpty)
  "# All Media\n\n" ++ String.join (category_titles.map (fun p =>
    "## " ++ p.1 ++ "\n" ++ String.join (p.2.map (fun t => "- " ++ t ++ "\n")) ++ "\n"))

/-- State-passing form of `create_markdown`: the rendered text together with
the catalog as left behind by the call.  The source only reads the catalog —
entries are grouped into fresh local lists, the in-place `group.sort` affects
only those lists, and no entry field is ever assigned — so the resulting
catalog is rebuilt from the same categories with every entry passed through
unchanged. -/
def create_markdown_st (jsonData : Catalog) : String × Catalog :=
  (create_markdown jsonData, jsonData.map (fun p => (p.1, p.2.map (fun e => e))))

/-- Modelled from the spec (§4.2 step 2, claim C4): the representative title
of a group is the `title_override` of the member with `series_sort == 0`
(the first member after sorting) when one is configured and nonempty, falling
back to the series name when it is not. -/
def spec_groupKeyTitle (g : List MediaEntry) : String :=
  match sortBySeriesSort g with
  | [] => ""
  | e :: _ =>
    match e.title_override with
    | some t => if t = "" then e.series else t
    | none => e.series

/-- Modelled from the spec: the group sort key built from the spec's
representative title, article-normalized and case-folded. -/
def spec_title_to_sort_by (g : List MediaEntry) : String :=
  pyCaseFold (articleNormalize (spec_groupKeyTitle g))

/-- Modelled from the spec: group ordering using the spec's representative
title as the key. -/
def spec_sorted_series (entries : List MediaEntry) : List (List MediaEntry) :=
  List.insertionSort
    (fun g1 g2 => pyLe (spec_title_to_sort_by g1).data (spec_title_to_sort_by g2).data = true)
    ((series_groups entries).map sortBySeriesSort)

/-- Recursion for `spec_franchiseHead` over the character list. -/
def spec_franchiseHeadAux : List Char → List Char
  | [] => []
  | '\\' :: '(' :: _ => []
  | c :: cs => c :: spec_franchiseHeadAux cs

/-- Modelled from the spec (§4.1 step 2, claim C7): the franchise marker
extraction read as the longest prefix before the first occurrence of a
backslash character followed by an opening parenthesis — the whole name when
no such two-character sequence occurs. -/
def spec_franchiseHead (name : String) : String :=
  String.mk (spec_franchiseHeadAux name.data)

/-- Modelled from the spec: the candidate set of claim C7 — existing series
names whose spec-extracted franchise head occurs inside the new title. -/
def spec_possible_franchises (title : String) (entries : List MediaEntry) : List String :=
  (distinctSeries entries).filter (fun s => pyContains title (spec_franchiseHead s))

/-- Dense-range invariant of the data model: the `series_sort` values of the
given members are exactly `0..k-1` for `k` members, no gaps, no duplicates. -/
def seriesDense (ms : List MediaEntry) : Prop :=
  ((ms.map (fun e => e.series_sort))).Perm ((List.range ms.length).map Int.ofNat)

instance instDecidableSeriesDense (ms : List MediaEntry) : Decidable (seriesDense ms) :=
  List.decidablePerm _ _

/-- Data-model invariants of a catalog: unique titles within a category,
nonempty series, and dense `series_sort` ranges per series. -/
def catalogInvariants (d : Catalog) : Prop :=
  ∀ p ∈ d, (p.2.map (fun e => e.title)).Nodup ∧
    (∀ e ∈ p.2, ¬ e.series = "") ∧
    ∀ s2 ∈ p.2.map (fun e => e.series), seriesDense (p.2.filter (fun e => e.series = s2))

instance instDecidableCatalogInvariants (d : Catalog) : Decidable (catalogInvariants d) := by
  unfold catalogInvariants
  infer_instance

/-! Helper lemmas shared by several claims. -/

/-- Every outcome of `add_entry` other than a successful `added` leaves the
catalog argument untouched: the only code paths that assign into the catalog
are the renumbering loop and the final append, both of which end in `added`. -/
theorem add_entry_cancel_frame (jsonData : Catalog) (category series : String) (inc : Bool)
    (fa : Option FirstAnswers) (sa ca pa : Option String)
    (h : (add_entry jsonData category series inc fa sa ca pa).1 = .cancelled) :
    (add_entry jsonData category series inc fa sa ca pa).2 = jsonData := by
  cases fa with
  | none => rfl
  | some a =>
    by_cases h1 : pyStrip a.title = ""
    · simp [add_entry, h1]
    · cases hec : lookupCat jsonData (resolveCategory category a) with
      | none => simp [add_entry, h1, hec]
      | some ec =>
        by_cases hdup : ec.any (fun e => e.title = pyStrip a.title) = true
        · simp [add_entry, h1, hec, hdup]
        · cases hs : resolveSeries series (pyStrip a.title) ec sa ca with
          | none => simp [add_entry, h1, hec, hdup, hs]
          | some s =>
            by_cases hse : s = ""
            · exfalso
              simp [add_entry, h1, hec, hdup, hs, hse] at h
            · by_cases hes : sortBySeriesSort (ec.filter (fun e => e.series = s)) = []
              · exfalso
                simp [add_entry, h1, hec, hdup, hs, hse, hes] at h
              · cases pa with
                | none => simp [add_entry, h1, hec, hdup, hs, hse, hes]
                | some pl =>
                  cases hnt : placementNewTitles (pyStrip a.title) pl
                      ((buildTitleMap (sortBySeriesSort (ec.filter
                        (fun e => e.series = s)))).map (fun p => p.1)) with
                  | none => simp [add_entry, h1, hec, hdup, hs, hse, hes, hnt]
                  | some nts =>
                    exfalso
                    simp [add_entry, h1, hec, hdup, hs, hse, hes, hnt] at h

/-- C3: cancelling the insertion at any prompt step — the first prompt
(category/title/override), the series-selection list, the custom-series text
prompt, or the placement list — makes `add_entry` signal the distinguishable
`cancelled` outcome (`UserCancel`), and whenever the outcome is `cancelled`
the catalog is returned exactly as it was: no entry added, no field of any
existing entry changed. -/
theorem c3_cancel_no_mutation (jsonData : Catalog) (category series : String) (inc : Bool)
    (fa : Option FirstAnswers) (sa ca pa : Option String) :
    ((add_entry jsonData category series inc fa sa ca pa).1 = .cancelled →
      (add_entry jsonData category series inc fa sa ca pa).2 = jsonData)
    ∧ add_entry jsonData category series inc none sa ca pa = (.cancelled, jsonData)
    ∧ (∀ a ec, fa = some a → pyStrip a.title ≠ "" →
        lookupCat jsonData (resolveCategory category a) = some ec →
        ec.any (fun e => e.title = pyStrip a.title) = false →
        series = "" →
        possible_franchises (pyStrip a.title) ec ≠ [] →
        add_entry jsonData category series inc fa none ca pa = (.cancelled, jsonData))
    ∧ (∀ a ec, fa = some a → pyStrip a.title ≠ "" →
        lookupCat jsonData (resolveCategory category a) = some ec →
        ec.any (fun e => e.title = pyStrip a.title) = false →
        series = "" →
        (possible_franchises (pyStrip a.title) ec = [] ∨ sa = some "CUSTOM") →
        add_entry jsonData category series inc fa sa none pa = (.cancelled, jsonData))
    ∧ (∀ a ec s, fa = some a → pyStrip a.title ≠ "" →
        lookupCat jsonData (resolveCategory category a) = some ec →
        ec.any (fun e => e.title = pyStrip a.title) = false →
        resolveSeries series (pyStrip a.title) ec sa ca = some s →
        s ≠ "" →
        sortBySeriesSort (ec.filter (fun e => e.series = s)) ≠ [] →
        add_entry jsonData category series inc fa sa ca none = (.cancelled, jsonData)) := by
  refine ⟨add_entry_cancel_frame jsonData category series inc fa sa ca pa, rfl, ?_, ?_, ?_⟩
  · rintro a ec rfl h1 hec hdup rfl hpf
    simp [add_entry, h1, hec, hdup, resolveSeries, handle_series, hpf]
  · rintro a ec rfl h1 hec hdup rfl hd
    rcases hd with hpf | rfl
    · simp [add_entry, h1, hec, hdup, resolveSeries, handle_series, hpf]
    · by_cases hpf : possible_franchises (pyStrip a.title) ec = [] <;>
        simp [add_entry, h1, hec, hdup, resolveSeries, handle_series, hpf]
  · rintro a ec s rfl h1 hec hdup hs hse hes
    simp [add_entry, h1, hec, hdup, hs, hse, hes]

/-- Witness for C3 at a concrete catalog: cancelling the series-selection
prompt (its reach conditions hold here) yields the `cancelled` outcome with
the catalog unchanged. -/
theorem c3_witness :
    add_entry [("Shows", [⟨"Ep1", "Show A", 0, none⟩])] "Shows" "" false
      (some ⟨"", "Show A 2", ""⟩) none none none =
      (.cancelled, [("Shows", [⟨"Ep1", "Show A", 0, none⟩])]) :=
  (c3_cancel_no_mutation [("Shows", [⟨"Ep1", "Show A", 0, none⟩])] "Shows" "" false
      (some ⟨"", "Show A 2", ""⟩) none none none).2.2.1
    ⟨"", "Show A 2", ""⟩ [⟨"Ep1", "Show A", 0, none⟩]
    rfl (by decide) (by decide) (by decide) rfl (by decide)

/-- C5: when some existing entry of the target category has exactly the
trimmed new title, `add_entry` is a no-op signalling `alreadyExists`: no
entry is returned, and the catalog (hence the entry count of the category
and every entry of every category) is exactly unchanged. -/
theorem c5_duplicate_noop (jsonData : Catalog) (category series : String) (inc : Bool)
    (a : FirstAnswers) (sa ca pa : Option String) (ec : List MediaEntry)
    (h1 : pyStrip a.title ≠ "")
    (hec : lookupCat jsonData (resolveCategory category a) = some ec)
    (hdup : ec.any (fun e => e.title = pyStrip a.title) = true) :
    add_entry jsonData category series inc (some a) sa ca pa = (.alreadyExists, jsonData) := by
  simp [add_entry, h1, hec, hdup]

/-- Witness for C5: inserting the already-present title `Ep1` again. -/
theorem c5_witness :
    add_entry [("Shows", [⟨"Ep1", "Show A", 0, none⟩])] "Shows" "" false
      (some ⟨"", " Ep1 ", ""⟩) none none none =
      (.alreadyExists, [("Shows", [⟨"Ep1", "Show A", 0, none⟩])]) :=
  c5_duplicate_noop [("Shows", [⟨"Ep1", "Show A", 0, none⟩])] "Shows" "" false
    ⟨"", " Ep1 ", ""⟩ none none none [⟨"Ep1", "Show A", 0, none⟩]
    (by decide) (by decide) (by decide)

/-- C9: rendering does not mutate the catalog: the state-passing form of
`create_markdown` returns the catalog with every category mapped to the same
entry sequence (hence every entry keeps its `title`, `series`, `series_sort`
and `title_override`), and re-rendering the returned catalog produces the
same text. -/
theorem c9_render_no_mutation (jsonData : Catalog) :
    (create_markdown_st jsonData).2 = jsonData ∧
    create_markdown ((create_markdown_st jsonData).2) = create_markdown jsonData := by
  have h : (create_markdown_st jsonData).2 = jsonData := by
    simp [create_markdown_st]
  exact ⟨h, by rw [h]⟩

/-- C10: a supplied title that is empty after trimming fails the title
prompt's validator and the insertion is rejected with outcome
`invalidTitle`, before any of the later prompt answers is consumed (the
result does not depend on them) and with the catalog exactly unchanged. -/
theorem c10_empty_title_rejected (jsonData : Catalog) (category series : String)
    (inc : Bool) (a : FirstAnswers) (sa ca pa : Option String)
    (h : pyStrip a.title = "") :
    add_entry jsonData category series inc (some a) sa ca pa = (.invalidTitle, jsonData) := by
  simp [add_entry, h]

/-- Witness for C10: a whitespace-only title is rejected without touching
the catalog. -/
theorem c10_witness :
    add_entry [("Shows", [⟨"Ep1", "Show A", 0, none⟩])] "Shows" "" false
      (some ⟨"", "   ", ""⟩) none none none =
      (.invalidTitle, [("Shows", [⟨"Ep1", "Show A", 0, none⟩])]) :=
  c10_empty_title_rejected [("Shows", [⟨"Ep1", "Show A", 0, none⟩])] "Shows" "" false
    ⟨"", "   ", ""⟩ none none none (by decide)

/-- The take/drop behaviour at the first space of a character list shaped as
a space-free article followed by a space and a remainder. -/
theorem takeDropAtSpace (as r : List Char) (has : ∀ c ∈ as, c ≠ ' ') :
    (as ++ ' ' :: r).takeWhile (fun c => c ≠ ' ') = as ∧
    (as ++ ' ' :: r).dropWhile (fun c => c ≠ ' ') = ' ' :: r := by
  induction as with
  | nil => simp
  | cons a as ih =>
    have ha : a ≠ ' ' := has a (by simp)
    have has2 : ∀ c ∈ as, c ≠ ' ' := fun c hc => has c (by simp [hc])
    obtain ⟨ih1, ih2⟩ := ih has2
    constructor
    · simpa [List.takeWhile_cons, ha] using ih1
    · simpa [List.dropWhile_cons, ha] using ih2

/-- Splitting at the first space of a string shaped as a space-free article
followed by a space and a remainder. -/
theorem splitAtFirstSpace_shape (as r : List Char) (has : ∀ c ∈ as, c ≠ ' ')
    (t : String) (ht : t.data = as ++ ' ' :: r) :
    splitAtFirstSpace t = (String.mk as, String.mk r) := by
  unfold splitAtFirstSpace
  rw [ht, (takeDropAtSpace as r has).1, (takeDropAtSpace as r has).2]
  simp

/-- Keys stay distinct under one grouping step. -/
theorem addToGroups_keys_nodup (gs : List (String × List MediaEntry)) (e : MediaEntry)
    (h : (gs.map (fun p => p.1)).Nodup) :
    ((addToGroups gs e).map (fun p => p.1)).Nodup := by
  unfold addToGroups
  by_cases hmem : gs.any (fun p => p.1 = e.series) = true
  · rw [if_pos hmem]
    have heq : (gs.map (fun p => if p.1 = e.series then (p.1, p.2 ++ [e]) else p)).map
        (fun p => p.1) = gs.map (fun p => p.1) := by
      rw [List.map_map]
      apply List.map_congr_left
      intro p _
      by_cases hp : p.1 = e.series <;> simp [hp]
    rw [heq]
    exact h
  · rw [if_neg hmem]
    rw [List.map_append, List.nodup_append]
    refine ⟨h, by simp, ?_⟩
    intro k hk
    simp only [List.any_eq_true, decide_eq_true_eq] at hmem
    simp only [List.mem_map] at hk
    obtain ⟨p, hp, rfl⟩ := hk
    simp only [List.map_cons, List.map_nil, List.mem_singleton]
    intro hcontra
    exact hmem ⟨p, hp, hcontra⟩


/-- Appending the new entry to its existing group permutes, at the flattened
level, to appending it after all previously grouped entries. -/
theorem flatten_update_group (gs : List (String × List MediaEntry)) (e : MediaEntry)
    (h : (gs.map (fun p => p.1)).Nodup)
    (hmem : e.series ∈ gs.map (fun p => p.1)) :
    (((gs.map (fun q => if q.1 = e.series then (q.1, q.2 ++ [e]) else q)).map
        (fun p => p.2)).flatten).Perm
      ((gs.map (fun p => p.2)).flatten ++ [e]) := by
  induction gs with
  | nil => simp at hmem
  | cons p ps ih =>
    simp only [List.map_cons, List.nodup_cons] at h
    by_cases hp : p.1 = e.series
    · have hnotin : ∀ q ∈ ps, ¬ q.1 = e.series := by
        intro q hq hcontra
        exact h.1 (hp ▸ hcontra ▸ List.mem_map_of_mem (fun x => x.1) hq)
      have hid : ps.map (fun q => if q.1 = e.series then (q.1, q.2 ++ [e]) else q) = ps := by
        have hcg := List.map_congr_left
          (f := fun q => if q.1 = e.series then (q.1, q.2 ++ [e]) else q)
          (g := id) (l := ps) (fun q hq => by simp [hnotin q hq])
        simpa using hcg
      simp only [List.map_cons, hp, if_pos rfl, hid, List.flatten_cons]
      have hstep : (p.2 ++ ([e] ++ (ps.map (fun q => q.2)).flatten)).Perm
          (p.2 ++ ((ps.map (fun q => q.2)).flatten ++ [e])) :=
        List.Perm.append_left p.2 List.perm_append_comm
      simpa [List.append_assoc] using hstep
    · have hmem2 : e.series ∈ ps.map (fun x => x.1) := by
        rcases List.mem_cons.mp hmem with h1 | h1
        · exact absurd h1.symm hp
        · exact h1
      simp only [List.map_cons, if_neg hp, List.flatten_cons]
      have hstep := List.Perm.append_left p.2 (ih h.2 hmem2)
      simpa [List.append_assoc] using hstep

/-- One grouping step appends the entry to the flattened grouped entries,
up to permutation. -/
theorem addToGroups_flatten (gs : List (String × List MediaEntry)) (e : MediaEntry)
    (h : (gs.map (fun p => p.1)).Nodup) :
    (((addToGroups gs e).map (fun p => p.2)).flatten).Perm
      ((gs.map (fun p => p.2)).flatten ++ [e]) := by
  unfold addToGroups
  by_cases hmem : gs.any (fun p => p.1 = e.series) = true
  · rw [if_pos hmem]
    apply flatten_update_group gs e h
    simp only [List.any_eq_true, decide_eq_true_eq] at hmem
    obtain ⟨p, hp, hps⟩ := hmem
    exact hps ▸ List.mem_map_of_mem (fun x => x.1) hp
  · rw [if_neg hmem]
    simp

/-- Folding the grouping loop over a category appends, up to permutation,
the processed entries after the already-grouped ones. -/
theorem foldl_addToGroups_flatten (es : List MediaEntry)
    (acc : List (String × List MediaEntry)) (h : (acc.map (fun p => p.1)).Nodup) :
    ((((es.foldl addToGroups acc)).map (fun p => p.2)).flatten).Perm
      ((acc.map (fun p => p.2)).flatten ++ es) := by
  induction es generalizing acc with
  | nil => simp
  | cons e es ih =>
    simp only [List.foldl_cons]
    have h2 := addToGroups_keys_nodup acc e h
    have step := (addToGroups_flatten acc e h).append_right es
    have tail := ih (addToGroups acc e) h2
    have := tail.trans step
    simpa [List.append_assoc] using this

/-- The groups of a category flatten back to its entries, up to permutation:
grouping by `series` partitions the category. -/
theorem series_groups_flatten (entries : List MediaEntry) :
    ((series_groups entries).flatten).Perm entries := by
  have h := foldl_addToGroups_flatten entries [] (by simp)
  simpa [series_groups] using h

/-- Sorting each group in place preserves the flattened entries up to
permutation. -/
theorem flatten_map_sort_perm (gs : List (List MediaEntry)) :
    (((gs.map sortBySeriesSort)).flatten).Perm gs.flatten := by
  induction gs with
  | nil => simp
  | cons g gs ih =>
    simp only [List.map_cons, List.flatten_cons]
    exact (List.perm_insertionSort _ g).append ih

/-- The fully sorted groups of `create_markdown` flatten back to the
category entries, up to permutation. -/
theorem sorted_series_flatten_perm (entries : List MediaEntry) :
    ((sorted_series entries).flatten).Perm entries :=
  ((List.perm_insertionSort _ _).flatten).trans
    ((flatten_map_sort_perm (series_groups entries)).trans (series_groups_flatten entries))

/-- When the title starts with a space-free article followed by a space, the
normalization moves exactly that article to the end after a comma. -/
theorem articleNormalize_move (t art : String) (r : List Char)
    (hart : ∀ c ∈ art.data, c ≠ ' ')
    (ht : t.data = art.data ++ ' ' :: r)
    (hcond : (pyStartsWith t "The " || pyStartsWith t "A " || pyStartsWith t "An ") = true) :
    articleNormalize t = String.mk r ++ ", " ++ art := by
  unfold articleNormalize
  rw [hcond, if_pos rfl]
  rw [splitAtFirstSpace_shape art.data r hart t ht]


/-- C6: every rendered line shows the article-normalized display title.  The
display title is `title_override` when present and nonempty, else `title`;
normalization moves a leading case-sensitive `The `, `A ` or `An ` (tested
only at the start, applied at most once) to the end after a comma; the four
example titles behave as the spec states; and the lines emitted for a
category are exactly the normalized display titles of its members (one line
per member, up to the rendering order). -/
theorem c6_article_normalized_display :
    (∀ t : String, pyStartsWith t "The " = true →
        articleNormalize t = String.mk (t.data.drop 4) ++ ", The")
    ∧ (∀ t : String, pyStartsWith t "A " = true →
        articleNormalize t = String.mk (t.data.drop 2) ++ ", A")
    ∧ (∀ t : String, pyStartsWith t "An " = true →
        articleNormalize t = String.mk (t.data.drop 3) ++ ", An")
    ∧ (∀ t : String, pyStartsWith t "The " = false → pyStartsWith t "A " = false →
        pyStartsWith t "An " = false → articleNormalize t = t)
    ∧ articleNormalize "The Great Escape" = "Great Escape, The"
    ∧ articleNormalize "A Study in Scarlet" = "Study in Scarlet, A"
    ∧ articleNormalize "An Education" = "Education, An"
    ∧ articleNormalize "Breaking Bad" = "Breaking Bad"
    ∧ (∀ e : MediaEntry, e.title_override = none → displayTitle e = e.title)
    ∧ (∀ e : MediaEntry, e.title_override = some "" → displayTitle e = e.title)
    ∧ (∀ (e : MediaEntry) (t : String), e.title_override = some t → t ≠ "" →
        displayTitle e = t)
    ∧ (∀ entries : List MediaEntry,
        (categoryLines entries).Perm
          (entries.map (fun e => articleNormalize (displayTitle e)))) := by
  refine ⟨?_, ?_, ?_, ?_, by decide, by decide, by decide, by decide, ?_, ?_, ?_, ?_⟩
  · intro t h
    have h2 : ("The ".data).isPrefixOf t.data = true := h
    obtain ⟨r, hr⟩ := List.isPrefixOf_iff_prefix.mp h2
    have ht : t.data = "The".data ++ ' ' :: r := by
      rw [← hr]
      rfl
    rw [articleNormalize_move t "The" r (by decide) ht (by simp [h])]
    have hdrop : t.data.drop 4 = r := by rw [ht]; rfl
    rw [hdrop]
    apply String.ext
    have hc1 : (", " : String).data = [',', ' '] := rfl
    have hc2 : (", The" : String).data = [',', ' ', 'T', 'h', 'e'] := rfl
    have hc3 : ("The" : String).data = ['T', 'h', 'e'] := rfl
    simp [String.data_append, hc1, hc2, hc3]
  · intro t h
    have h2 : ("A ".data).isPrefixOf t.data = true := h
    obtain ⟨r, hr⟩ := List.isPrefixOf_iff_prefix.mp h2
    have ht : t.data = "A".data ++ ' ' :: r := by
      rw [← hr]
      rfl
    rw [articleNormalize_move t "A" r (by decide) ht (by simp [h])]
    have hdrop : t.data.drop 2 = r := by rw [ht]; rfl
    rw [hdrop]
    apply String.ext
    have hc1 : (", " : String).data = [',', ' '] := rfl
    have hc2 : (", A" : String).data = [',', ' ', 'A'] := rfl
    have hc3 : ("A" : String).data = ['A'] := rfl
    simp [String.data_append, hc1, hc2, hc3]
  · intro t h
    have h2 : ("An ".data).isPrefixOf t.data = true := h
    obtain ⟨r, hr⟩ := List.isPrefixOf_iff_prefix.mp h2
    have ht : t.data = "An".data ++ ' ' :: r := by
      rw [← hr]
      rfl
    rw [articleNormalize_move t "An" r (by decide) ht (by simp [h])]
    have hdrop : t.data.drop 3 = r := by rw [ht]; rfl
    rw [hdrop]
    apply String.ext
    have hc1 : (", " : String).data = [',', ' '] := rfl
    have hc2 : (", An" : String).data = [',', ' ', 'A', 'n'] := rfl
    have hc3 : ("An" : String).data = ['A', 'n'] := rfl
    simp [String.data_append, hc1, hc2, hc3]
  · intro t h1 h2 h3
    unfold articleNormalize
    rw [h1, h2, h3]
    simp
  · intro e he
    simp [displayTitle, he]
  · intro e he
    simp [displayTitle, he]
  · intro e t he ht
    simp [displayTitle, he, ht]
  · intro entries
    have hmf := List.map_flatten (fun e => articleNormalize (displayTitle e))
      (sorted_series entries)
    unfold categoryLines
    rw [← hmf]
    exact List.Perm.map _ (sorted_series_flatten_perm entries)

/-- Witness for C6: the leading-article clause applied to the spec's first
example title. -/
theorem c6_witness :
    pyStartsWith "The Great Escape" "The " = true ∧
    articleNormalize "The Great Escape" =
      String.mk ("The Great Escape".data.drop 4) ++ ", The" :=
  ⟨by decide, c6_article_normalized_display.1 "The Great Escape" (by decide)⟩

/-- Membership in the distinct-series collection is membership among the
`series` values of the category. -/
theorem distinctSeries_mem (entries : List MediaEntry) (s : String) :
    s ∈ distinctSeries entries ↔ ∃ e ∈ entries, e.series = s := by
  have general : ∀ (es : List MediaEntry) (acc : List String),
      s ∈ es.foldl (fun acc e => if acc.contains e.series then acc else acc ++ [e.series]) acc ↔
        s ∈ acc ∨ ∃ e ∈ es, e.series = s := by
    intro es
    induction es with
    | nil => simp
    | cons e es ih =>
      intro acc
      simp only [List.foldl_cons]
      rw [ih]
      by_cases hc : acc.contains e.series = true
      · rw [if_pos hc]
        have hmem : e.series ∈ acc := List.elem_iff.mp hc
        constructor
        · rintro (h | ⟨e2, he2, hs⟩)
          · exact Or.inl h
          · exact Or.inr ⟨e2, List.mem_cons_of_mem e he2, hs⟩
        · rintro (h | ⟨e2, he2, hs⟩)
          · exact Or.inl h
          · rcases List.mem_cons.mp he2 with rfl | h2
            · exact Or.inl (hs ▸ hmem)
            · exact Or.inr ⟨e2, h2, hs⟩
      · rw [if_neg hc]
        constructor
        · rintro (h | ⟨e2, he2, hs⟩)
          · rcases List.mem_append.mp h with h2 | h2
            · exact Or.inl h2
            · exact Or.inr ⟨e, List.mem_cons_self e es, (List.mem_singleton.mp h2).symm⟩
          · exact Or.inr ⟨e2, List.mem_cons_of_mem e he2, hs⟩
        · rintro (h | ⟨e2, he2, hs⟩)
          · exact Or.inl (List.mem_append.mpr (Or.inl h))
          · rcases List.mem_cons.mp he2 with rfl | h2
            · exact Or.inl (List.mem_append.mpr (Or.inr (by simp [hs])))
            · exact Or.inr ⟨e2, h2, hs⟩
  have h := general entries []
  simpa [distinctSeries] using h

/-- A prefix all of whose elements satisfy the predicate is no longer than
the maximal such leading run. -/
theorem takeWhile_maximal (p : Char → Bool) (l q : List Char) (hq : q <+: l)
    (hall : ∀ c ∈ q, p c = true) : q.length ≤ (l.takeWhile p).length := by
  induction q generalizing l with
  | nil => simp
  | cons a q ih =>
    obtain ⟨r, hr⟩ := hq
    cases l with
    | nil => simp at hr
    | cons b l =>
      have hab : a = b := by
        have := congrArg (fun x => x.headD a) hr
        simpa using this
      have htail : q ++ r = l := by
        have := congrArg List.tail hr
        simpa using this
      have hpa : p b = true := hab ▸ hall a (by simp)
      rw [List.takeWhile_cons, hpa]
      simp only [List.length_cons, if_true]
      have := ih l ⟨r, htail⟩ (fun c hc => hall c (by simp [hc]))
      omega

/-- Characterization of the regex match `^([^\\(]+)`: it returns exactly the
longest nonempty prefix whose characters avoid the backslash and the opening
parenthesis. -/
theorem seriesRegexMatch_chr (s p : String) :
    seriesRegexMatch s = some p ↔
      (p ≠ "" ∧ p.data <+: s.data ∧ (∀ c ∈ p.data, c ≠ '\\' ∧ c ≠ '(') ∧
       ∀ q : List Char, q <+: s.data → (∀ c ∈ q, c ≠ '\\' ∧ c ≠ '(') →
         q.length ≤ p.data.length) := by
  unfold seriesRegexMatch
  constructor
  · intro h
    by_cases hrun : s.data.takeWhile (fun c => c ≠ '\\' ∧ c ≠ '(') = []
    · rw [if_pos hrun] at h
      exact absurd h (by simp)
    · rw [if_neg hrun] at h
      have hp : p.data = s.data.takeWhile (fun c => c ≠ '\\' ∧ c ≠ '(') := by
        have := Option.some.inj h
        rw [← this]
      refine ⟨?_, ?_, ?_, ?_⟩
      · intro hc
        exact hrun (by rw [← hp, hc])
      · rw [hp]
        exact List.takeWhile_prefix _
      · intro c hc
        rw [hp] at hc
        have hd := List.mem_takeWhile_imp
          (p := fun c => decide (c ≠ '\\' ∧ c ≠ '(')) hc
        exact of_decide_eq_true hd
      · intro q hq hall
        rw [hp]
        exact takeWhile_maximal _ s.data q hq
          (fun c hc => decide_eq_true (hall c hc))
  · rintro ⟨hne, hpre, hall, hmax⟩
    have hpd : p.data ≠ [] := fun hc => hne (String.ext hc)
    have h1 : p.data.length ≤ (s.data.takeWhile (fun c => c ≠ '\\' ∧ c ≠ '(')).length :=
      takeWhile_maximal _ s.data p.data hpre (fun c hc => decide_eq_true (hall c hc))
    have h2 : (s.data.takeWhile (fun c => c ≠ '\\' ∧ c ≠ '(')).length ≤ p.data.length := by
      refine hmax _ ( List.takeWhile_prefix _) ?_
      intro c hc
      have hd := List.mem_takeWhile_imp
        (p := fun c => decide (c ≠ '\\' ∧ c ≠ '(')) hc
      exact of_decide_eq_true hd
    have hsub : s.data.takeWhile (fun c => c ≠ '\\' ∧ c ≠ '(') <+: p.data :=
      List.prefix_of_prefix_length_le ( List.takeWhile_prefix _) hpre h2
    have heq : s.data.takeWhile (fun c => c ≠ '\\' ∧ c ≠ '(') = p.data :=
      hsub.eq_of_length (by omega)
    rw [if_neg (by rw [heq]; exact hpd)]
    exact congrArg some (String.ext heq)

/-- Counterexample for C7 as stated: with one existing series `Show (US)`
and new title `Show Special`, the code's candidate set contains `Show (US)`
(the regex run stops at the `(` character, extracting `Show `), while the
claim's extraction — the prefix before the first backslash-then-parenthesis
sequence — is the whole name `Show (US)`, which is not a substring of the
title, so the claim's candidate set is empty. -/
theorem c7_counterexample :
    "Show (US)" ∈ possible_franchises "Show Special"
      [⟨"Pilot", "Show (US)", 0, none⟩] ∧
    pyContains "Show Special" (spec_franchiseHead "Show (US)") = false ∧
    spec_possible_franchises "Show Special" [⟨"Pilot", "Show (US)", 0, none⟩] = [] := by
  decide

/-- C7 amended: the candidate set offered during series auto-resolution is
exactly the set of existing series names of the target category whose
longest nonempty leading run of characters, each different from a backslash
and from an opening parenthesis, occurs as a substring within the new title
(a name beginning with a backslash or an opening parenthesis has no such
run and is never a candidate). -/
theorem c7_candidate_set (title : String) (entries : List MediaEntry) (s : String) :
    s ∈ possible_franchises title entries ↔
      ((∃ e ∈ entries, e.series = s) ∧
       ∃ p : String,
         (p ≠ "" ∧ p.data <+: s.data ∧ (∀ c ∈ p.data, c ≠ '\\' ∧ c ≠ '(') ∧
          ∀ q : List Char, q <+: s.data → (∀ c ∈ q, c ≠ '\\' ∧ c ≠ '(') →
            q.length ≤ p.data.length) ∧
         pyContains title p = true) := by
  unfold possible_franchises
  rw [List.mem_filter, distinctSeries_mem]
  constructor
  · rintro ⟨hmem, hf⟩
    refine ⟨hmem, ?_⟩
    cases hsr : seriesRegexMatch s with
    | none =>
      rw [hsr] at hf
      simp at hf
    | some p =>
      rw [hsr] at hf
      exact ⟨p, (seriesRegexMatch_chr s p).mp hsr, hf⟩
  · rintro ⟨hmem, p, hchr, hcont⟩
    refine ⟨hmem, ?_⟩
    rw [(seriesRegexMatch_chr s p).mpr hchr]
    exact hcont

/-- Witness for the amended C7 at a concrete input: `Show A` is a candidate
for the new title `Show A Movie`, with run `Show A`. -/
theorem c7_witness :
    (∃ e ∈ [(⟨"Ep1", "Show A", 0, none⟩ : MediaEntry)], e.series = "Show A") ∧
    ∃ p : String,
      (p ≠ "" ∧ p.data <+: "Show A".data ∧ (∀ c ∈ p.data, c ≠ '\\' ∧ c ≠ '(') ∧
       ∀ q : List Char, q <+: "Show A".data → (∀ c ∈ q, c ≠ '\\' ∧ c ≠ '(') →
         q.length ≤ p.data.length) ∧
      pyContains "Show A Movie" p = true :=
  (c7_candidate_set "Show A Movie" [⟨"Ep1", "Show A", 0, none⟩] "Show A").mp (by decide)

/-- Reflexivity of the Python string comparison. -/
theorem pyLe_refl : ∀ a : List Char, pyLe a a = true
  | [] => rfl
  | c :: cs => by
    simp only [pyLe, lt_irrefl, if_false]
    exact pyLe_refl cs

/-- Totality of the Python string comparison. -/
theorem pyLe_total : ∀ a b : List Char, pyLe a b = true ∨ pyLe b a = true
  | [], _ => Or.inl rfl
  | _ :: _, [] => Or.inr rfl
  | a :: as, b :: bs => by
    simp only [pyLe]
    rcases lt_trichotomy a b with h | h | h
    · left
      rw [if_pos h]
    · subst h
      simp only [lt_irrefl, if_false]
      exact pyLe_total as bs
    · right
      rw [if_pos h]

/-- Transitivity of the Python string comparison. -/
theorem pyLe_trans : ∀ a b c : List Char, pyLe a b = true → pyLe b c = true → pyLe a c = true
  | [], _, _, _, _ => rfl
  | _ :: _, [], _, hab, _ => by simp [pyLe] at hab
  | _ :: _, _ :: _, [], _, hbc => by simp [pyLe] at hbc
  | a :: as, b :: bs, c :: cs, hab, hbc => by
    simp only [pyLe] at hab hbc ⊢
    rcases lt_trichotomy a b with h1 | h1 | h1
    · rcases lt_trichotomy b c with h2 | h2 | h2
      · rw [if_pos (lt_trans h1 h2)]
      · subst h2
        rw [if_pos h1]
      · rw [if_neg (lt_asymm h2), if_pos h2] at hbc
        exact absurd hbc (by simp)
    · subst h1
      rcases lt_trichotomy a c with h2 | h2 | h2
      · rw [if_pos h2]
      · subst h2
        simp only [lt_irrefl, if_false] at hab hbc ⊢
        exact pyLe_trans as bs cs hab hbc
      · rw [if_neg (lt_asymm h2), if_pos h2] at hbc
        exact absurd hbc (by simp)
    · rw [if_neg (lt_asymm h1), if_pos h1] at hab
      exact absurd hab (by simp)

/-- Counterexample for C4 as stated: in a category holding the singleton
group of series `Aaa` (whose rank-0 member has override `Zzz`) and the
singleton group of series `Mmm` (no override), the renderer keys the first
group by the series name (`aaa`) and lists it first, while the claim's
representative title is the override (`zzz`), under which that group would
come second. -/
theorem c4_counterexample :
    sorted_series [⟨"Bbb", "Aaa", 0, some "Zzz"⟩, ⟨"Mmm", "Mmm", 0, none⟩] ≠
      spec_sorted_series [⟨"Bbb", "Aaa", 0, some "Zzz"⟩, ⟨"Mmm", "Mmm", 0, none⟩] ∧
    categoryLines [⟨"Bbb", "Aaa", 0, some "Zzz"⟩, ⟨"Mmm", "Mmm", 0, none⟩] =
      ["Zzz", "Mmm"] ∧
    spec_title_to_sort_by [⟨"Bbb", "Aaa", 0, some "Zzz"⟩] = "zzz" ∧
    title_to_sort_by [⟨"Bbb", "Aaa", 0, some "Zzz"⟩] = "aaa" := by
  decide

/-- C4 amended: within each category the renderer orders the series groups
ascending, stably and case-insensitively by the article-normalized,
case-folded series name of the group (the `series` field of the group's
member with `series_sort = 0`, i.e. its first member after sorting), falling
back to that member's title only when the series name is empty — not by the
member's overridden display title.  Ascending: the emitted group sequence is
pairwise ordered under the case-folded key; complete: it is a permutation of
the groups; stable: any two groups with equal keys keep their original
relative order. -/
theorem c4_group_order (entries : List MediaEntry) :
    List.Pairwise
      (fun g1 g2 => pyLe (title_to_sort_by g1).data (title_to_sort_by g2).data = true)
      (sorted_series entries)
    ∧ (sorted_series entries).Perm ((series_groups entries).map sortBySeriesSort)
    ∧ (∀ g1 g2 : List MediaEntry,
        [g1, g2].Sublist ((series_groups entries).map sortBySeriesSort) →
        title_to_sort_by g1 = title_to_sort_by g2 →
        [g1, g2].Sublist (sorted_series entries)) := by
  have htotal : ∀ g1 g2 : List MediaEntry,
      pyLe (title_to_sort_by g1).data (title_to_sort_by g2).data = true ∨
      pyLe (title_to_sort_by g2).data (title_to_sort_by g1).data = true :=
    fun g1 g2 => pyLe_total _ _
  have htrans : ∀ g1 g2 g3 : List MediaEntry,
      pyLe (title_to_sort_by g1).data (title_to_sort_by g2).data = true →
      pyLe (title_to_sort_by g2).data (title_to_sort_by g3).data = true →
      pyLe (title_to_sort_by g1).data (title_to_sort_by g3).data = true :=
    fun g1 g2 g3 => pyLe_trans _ _ _
  refine ⟨?_, ?_, ?_⟩
  · letI : IsTotal (List MediaEntry)
        (fun g1 g2 => pyLe (title_to_sort_by g1).data (title_to_sort_by g2).data = true) :=
      ⟨htotal⟩
    letI : IsTrans (List MediaEntry)
        (fun g1 g2 => pyLe (title_to_sort_by g1).data (title_to_sort_by g2).data = true) :=
      ⟨htrans⟩
    exact List.sorted_insertionSort _ _
  · exact List.perm_insertionSort _ _
  · intro g1 g2 hsub hkey
    refine List.sublist_insertionSort ?_ hsub
    refine List.Pairwise.cons ?_ (List.pairwise_singleton _ _)
    intro b hb
    rw [List.mem_singleton] at hb
    subst hb
    rw [hkey]
    exact pyLe_refl _

/-- Witness for the amended C4: two singleton groups whose series names
differ only in case have equal keys, and stability keeps their original
order in the rendered sequence. -/
theorem c4_witness :
    [[(⟨"E1", "Dup", 0, none⟩ : MediaEntry)], [⟨"E2", "dup", 0, none⟩]].Sublist
      (sorted_series [⟨"E1", "Dup", 0, none⟩, ⟨"E2", "dup", 0, none⟩]) :=
  (c4_group_order [⟨"E1", "Dup", 0, none⟩, ⟨"E2", "dup", 0, none⟩]).2.2
    [⟨"E1", "Dup", 0, none⟩] [⟨"E2", "dup", 0, none⟩] (by decide) (by decide)

/-- A found index is in bounds and points at the sought element. -/
theorem listIndex_getElem : ∀ (l : List String) (x : String) (j : Nat),
    listIndex l x = some j → j < l.length ∧ l[j]? = some x := by
  intro l
  induction l with
  | nil => intro x j h; simp [listIndex] at h
  | cons y l ih =>
    intro x j h
    by_cases hxy : y = x
    · rw [listIndex, if_pos hxy] at h
      obtain rfl := Option.some.inj h
      simp [hxy]
    · rw [listIndex, if_neg hxy] at h
      cases hr : listIndex l x with
      | none => rw [hr] at h; simp at h
      | some j2 =>
        rw [hr] at h
        simp at h
        subst h
        obtain ⟨hlt, hget⟩ := ih x j2 hr
        constructor
        · simpa using hlt
        · simpa using hget

/-- Every member has a first index. -/
theorem listIndex_mem : ∀ (l : List String) (x : String), x ∈ l →
    ∃ j, listIndex l x = some j := by
  intro l
  induction l with
  | nil => intro x h; simp at h
  | cons y l ih =>
    intro x h
    by_cases hxy : y = x
    · exact ⟨0, by rw [listIndex, if_pos hxy]⟩
    · have hx : x ∈ l := by
        rcases List.mem_cons.mp h with rfl | h2
        · exact absurd rfl hxy
        · exact h2
      obtain ⟨j, hj⟩ := ih x hx
      exact ⟨j + 1, by rw [listIndex, if_neg hxy, hj]; rfl⟩

/-- In a duplicate-free list the first index of the element at position `j`
is `j` itself. -/
theorem listIndex_get_nodup : ∀ (l : List String), l.Nodup → ∀ (j : Nat) (h : j < l.length),
    listIndex l l[j] = some j := by
  intro l
  induction l with
  | nil => intro _ j h; simp at h
  | cons y l ih =>
    intro hnd j h
    rw [List.nodup_cons] at hnd
    cases j with
    | zero => simp [listIndex]
    | succ j =>
      have hj : j < l.length := by simpa using h
      have hmem : l[j] ∈ l := List.getElem_mem hj
      have hne : y ≠ l[j] := fun hc => hnd.1 (hc ▸ hmem)
      have hgl : (y :: l)[j + 1] = l[j] := by simp
      rw [hgl, listIndex, if_neg hne, ih hnd.2 j hj]
      rfl

/-- The first index of `x` after a block that avoids `x` is the block
length. -/
theorem listIndex_append_notin : ∀ (l1 : List String) (x : String) (l2 : List String),
    (∀ y ∈ l1, y ≠ x) → listIndex (l1 ++ x :: l2) x = some l1.length := by
  intro l1
  induction l1 with
  | nil => intro x l2 _; simp [listIndex]
  | cons y l1 ih =>
    intro x l2 hno
    have hy : y ≠ x := hno y (by simp)
    rw [List.cons_append, listIndex, if_neg hy,
      ih x l2 (fun z hz => hno z (by simp [hz]))]
    rfl

/-- Python's clamped insert permutes to consing the element in front. -/
theorem insertAt_perm (n : Nat) (x : String) (l : List String) :
    (insertAt n x l).Perm (x :: l) := by
  unfold insertAt
  have h := @List.perm_middle _ x (l.take n) (l.drop n)
  simpa [List.take_append_drop] using h

/-- Length of the clamped insert. -/
theorem insertAt_length (n : Nat) (x : String) (l : List String) :
    (insertAt n x l).length = l.length + 1 :=
  ((insertAt_perm n x l).length_eq).trans (by simp)

/-- Replaying sort writes never changes the title, series or override of an
entry. -/
theorem writesFold_fields : ∀ (ws : List (String × Int)) (e : MediaEntry),
    (writesFold ws e).title = e.title ∧ (writesFold ws e).series = e.series ∧
    (writesFold ws e).title_override = e.title_override := by
  intro ws
  induction ws with
  | nil => intro e; exact ⟨rfl, rfl, rfl⟩
  | cons w ws ih =>
    intro e
    by_cases hw : w.1 = e.title
    · have h1 : writesFold (w :: ws) e = writesFold ws { e with series_sort := w.2 } := by
        simp [writesFold, List.foldl_cons, hw]
      rw [h1]
      exact ih _
    · have h1 : writesFold (w :: ws) e = writesFold ws e := by
        simp [writesFold, List.foldl_cons, hw]
      rw [h1]
      exact ih e

/-- Sort writes whose keys all differ from the entry title leave the entry
unchanged. -/
theorem writesFold_of_notin : ∀ (ws : List (String × Int)) (e : MediaEntry),
    (∀ w ∈ ws, w.1 ≠ e.title) → writesFold ws e = e := by
  intro ws
  induction ws with
  | nil => intro e _; rfl
  | cons w ws ih =>
    intro e hno
    have hw : ¬ w.1 = e.title := hno w (by simp)
    have h1 : writesFold (w :: ws) e = writesFold ws e := by
      simp [writesFold, List.foldl_cons, hw]
    rw [h1]
    exact ih e (fun w2 hw2 => hno w2 (by simp [hw2]))

/-- Every write produced by the renumbering loop targets a title of the
processed list. -/
theorem assignFrom_write_keys (tm : List (String × MediaEntry)) :
    ∀ (ts : List String) (i : Nat) (w : String × Int),
      w ∈ (assignFrom tm i ts).1 → w.1 ∈ ts := by
  intro ts
  induction ts with
  | nil => intro i w h; simp [assignFrom] at h
  | cons x ts ih =>
    intro i w h
    rw [assignFrom] at h
    cases hl : lookupTM tm x with
    | none =>
      rw [hl] at h
      exact List.mem_cons_of_mem x (ih (i + 1) w h)
    | some e =>
      rw [hl] at h
      rcases List.mem_cons.mp h with rfl | h2
      · simp
      · exact List.mem_cons_of_mem x (ih (i + 1) w h2)

/-- When every processed title is a dict key the loop never touches the
local `series_sort` variable. -/
theorem assignFrom_snd_none (tm : List (String × MediaEntry)) :
    ∀ (ts : List String) (i : Nat), (∀ x ∈ ts, lookupTM tm x ≠ none) →
      (assignFrom tm i ts).2 = none := by
  intro ts
  induction ts with
  | nil => intro i _; rfl
  | cons x ts ih =>
    intro i hall
    rw [assignFrom]
    cases hl : lookupTM tm x with
    | none => exact absurd hl (hall x (by simp))
    | some e =>
      simp only
      exact ih (i + 1) (fun y hy => hall y (by simp [hy]))

/-- The local `series_sort` variable ends up holding the position of the one
processed title that is not a dict key. -/
theorem assignFrom_snd_unique (tm : List (String × MediaEntry)) :
    ∀ (ts : List String) (i idx : Nat) (t : String),
      ts.Nodup → listIndex ts t = some idx → lookupTM tm t = none →
      (∀ x ∈ ts, x ≠ t → lookupTM tm x ≠ none) →
      (assignFrom tm i ts).2 = some (Int.ofNat (i + idx)) := by
  intro ts
  induction ts with
  | nil => intro i idx t _ hli _ _; simp [listIndex] at hli
  | cons x ts ih =>
    intro i idx t hnd hli hnone hall
    rw [List.nodup_cons] at hnd
    rw [assignFrom]
    by_cases hxt : x = t
    · rw [listIndex, if_pos hxt] at hli
      obtain rfl := Option.some.inj hli
      rw [hxt, hnone]
      have hrest : (assignFrom tm (i + 1) ts).2 = none := by
        apply assignFrom_snd_none
        intro y hy
        apply hall y (by simp [hy])
        intro hc
        subst hc
        exact hnd.1 (hxt ▸ hy)
      simp [hrest, Option.orElse]
    · rw [listIndex, if_neg hxt] at hli
      cases hr : listIndex ts t with
      | none => rw [hr] at hli; simp at hli
      | some idx2 =>
        rw [hr] at hli
        simp at hli
        subst hli
        have hx : lookupTM tm x ≠ none := hall x (by simp) hxt
        cases hl : lookupTM tm x with
        | none => exact absurd hl hx
        | some e =>
          simp only
          have harith : i + (idx2 + 1) = i + 1 + idx2 := by omega
          rw [harith]
          exact ih (i + 1) idx2 t hnd.2 hr hnone
            (fun y hy hyt => hall y (by simp [hy]) hyt)

/-- A member entry whose title sits at position `idx` of the processed list
receives `series_sort = i + idx` from the renumbering writes. -/
theorem assignFrom_writes_member (tm : List (String × MediaEntry)) :
    ∀ (ts : List String) (i idx : Nat) (e : MediaEntry),
      ts.Nodup → listIndex ts e.title = some idx → lookupTM tm e.title ≠ none →
      writesFold (assignFrom tm i ts).1 e =
        { e with series_sort := Int.ofNat (i + idx) } := by
  intro ts
  induction ts with
  | nil => intro i idx e _ hli _; simp [listIndex] at hli
  | cons x ts ih =>
    intro i idx e hnd hli hsome
    rw [List.nodup_cons] at hnd
    rw [assignFrom]
    by_cases hxt : x = e.title
    · rw [listIndex, if_pos hxt] at hli
      obtain rfl := Option.some.inj hli
      cases hl : lookupTM tm x with
      | none => exact absurd (hxt ▸ hl) hsome
      | some e2 =>
        simp only
        have hstep : writesFold ((x, Int.ofNat i) :: (assignFrom tm (i + 1) ts).1) e =
            writesFold (assignFrom tm (i + 1) ts).1 { e with series_sort := Int.ofNat i } := by
          simp [writesFold, List.foldl_cons, hxt]
        rw [hstep, writesFold_of_notin]
        · simp
        · intro w hw
          have hwt : w.1 ∈ ts := assignFrom_write_keys tm ts (i + 1) w hw
          intro hc
          simp only at hc
          exact hnd.1 (by rw [hxt, ← hc]; exact hwt)
    · rw [listIndex, if_neg hxt] at hli
      cases hr : listIndex ts e.title with
      | none => rw [hr] at hli; simp at hli
      | some idx2 =>
        rw [hr] at hli
        simp at hli
        subst hli
        cases hl : lookupTM tm x with
        | none =>
          simp only
          have := ih (i + 1) idx2 e hnd.2 hr hsome
          rw [this]
          have harith : i + 1 + idx2 = i + (idx2 + 1) := by omega
          rw [harith]
        | some e2 =>
          simp only
          have hstep : writesFold ((x, Int.ofNat i) :: (assignFrom tm (i + 1) ts).1) e =
              writesFold (assignFrom tm (i + 1) ts).1 e := by
            simp [writesFold, List.foldl_cons, hxt]
          rw [hstep]
          have := ih (i + 1) idx2 e hnd.2 hr hsome
          rw [this]
          have harith : i + 1 + idx2 = i + (idx2 + 1) := by omega
          rw [harith]

/-- Mapping every element of a duplicate-free list to its first index lists
the positions in order. -/
theorem map_listIndex_range : ∀ (l : List String), l.Nodup →
    l.map (fun x => (listIndex l x).getD 0) = List.range l.length := by
  intro l
  induction l with
  | nil => simp
  | cons a l ih =>
    intro hnd
    rw [List.nodup_cons] at hnd
    have hhead : (listIndex (a :: l) a).getD 0 = 0 := by
      rw [listIndex, if_pos rfl]
      rfl
    have htail : ∀ x ∈ l, (listIndex (a ::l) x).getD 0 = (listIndex l x).getD 0 + 1 := by
      intro x hx
      have hne : a ≠ x := fun hc => hnd.1 (hc ▸ hx)
      obtain ⟨j, hj⟩ := listIndex_mem l x hx
      rw [listIndex, if_neg hne, hj]
      rfl
    rw [List.map_cons, hhead]
    have hmap : l.map (fun x => (listIndex (a :: l) x).getD 0) =
        l.map (fun x => (listIndex l x).getD 0 + 1) :=
      List.map_congr_left htail
    rw [hmap]
    have : l.map (fun x => (listIndex l x).getD 0 + 1) =
        (l.map (fun x => (listIndex l x).getD 0)).map (fun n => n + 1) := by
      rw [List.map_map]
      rfl
    rw [this, ih hnd.2, List.length_cons, List.range_succ_eq_map]

/-- With duplicate-free titles the `title -> entry` dict is the list of
(title, entry) pairs in order. -/
theorem buildTitleMap_eq (es : List MediaEntry) (hnd : (es.map (fun e => e.title)).Nodup) :
    buildTitleMap es = es.map (fun e => (e.title, e)) := by
  have general : ∀ (es2 : List MediaEntry) (acc : List (String × MediaEntry)),
      (∀ e ∈ es2, e.title ∉ acc.map (fun p => p.1)) → (es2.map (fun e => e.title)).Nodup →
      es2.foldl (fun m e => dictInsert m e.title e) acc = acc ++ es2.map (fun e => (e.title, e)) := by
    intro es2
    induction es2 with
    | nil => intro acc _ _; simp
    | cons e es2 ih =>
      intro acc hdisj hnd2
      rw [List.map_cons, List.nodup_cons] at hnd2
      simp only [List.foldl_cons]
      have hkey : acc.any (fun p => p.1 = e.title) = false := by
        rw [List.any_eq_false]
        intro p hp
        simp only [decide_eq_true_eq]
        intro hc
        exact hdisj e (by simp) (hc ▸ List.mem_map_of_mem (fun p => p.1) hp)
      have hins : dictInsert acc e.title e = acc ++ [(e.title, e)] := by
        unfold dictInsert
        rw [if_neg (by rw [hkey]; simp)]
      rw [hins, ih (acc ++ [(e.title, e)]) ?_ hnd2.2]
      · simp
      · intro e2 he2
        rw [List.map_append, List.mem_append]
        rintro (hc | hc)
        · exact hdisj e2 (by simp [he2]) hc
        · simp at hc
          exact hnd2.1 (hc ▸ List.mem_map_of_mem (fun e => e.title) he2)
  have h := general es [] (by simp) hnd
  simpa using h

/-- Lookup in the title dict misses exactly the strings that are not member
titles. -/
theorem lookupTM_map_none_iff (es : List MediaEntry) (x : String) :
    lookupTM (es.map (fun e => (e.title, e))) x = none ↔ x ∉ es.map (fun e => e.title) := by
  induction es with
  | nil => simp [lookupTM]
  | cons e es ih =>
    rw [List.map_cons, lookupTM]
    by_cases hx : e.title = x
    · rw [if_pos hx]
      simp [hx]
    · rw [if_neg hx]
      rw [List.map_cons]
      simp only [List.mem_cons, ih]
      constructor
      · intro h hc
        rcases hc with hc | hc
        · exact hx hc.symm
        · exact h hc
      · intro h
        intro hc
        exact h (Or.inr hc)

/-- Any successful placement answer re-derives the title list as an insert
of the new title at a position within bounds. -/
theorem placementNewTitles_shape (t pl : String) (ks nts : List String)
    (h : placementNewTitles t pl ks = some nts) :
    ∃ pos, pos ≤ ks.length ∧ nts = insertAt pos t ks := by
  unfold placementNewTitles at h
  by_cases h1 : pl = "At the start"
  · rw [if_pos h1] at h
    refine ⟨0, by simp, ?_⟩
    rw [← Option.some.inj h]
    rfl
  · rw [if_neg h1] at h
    by_cases h2 : pl = "At the end"
    · rw [if_pos h2] at h
      refine ⟨ks.length, le_refl _, ?_⟩
      rw [← Option.some.inj h]
      unfold insertAt
      rw [List.take_length, List.drop_length]
    · rw [if_neg h2] at h
      cases hli : listIndex ks pl with
      | none => rw [hli] at h; simp at h
      | some p =>
        rw [hli] at h
        simp at h
        obtain ⟨hlt, _⟩ := listIndex_getElem ks pl p hli
        exact ⟨p + 1, by omega, h.symm⟩

/-- Applying sort writes never changes the series of an entry. -/
theorem applySortWrites_series (s : String) (ws : List (String × Int)) (e : MediaEntry) :
    (applySortWrites s ws e).series = e.series := by
  unfold applySortWrites
  split
  · exact (writesFold_fields ws e).2.1
  · rfl

/-- Applying sort writes never changes the title of an entry. -/
theorem applySortWrites_title (s : String) (ws : List (String × Int)) (e : MediaEntry) :
    (applySortWrites s ws e).title = e.title := by
  unfold applySortWrites
  split
  · exact (writesFold_fields ws e).1
  · rfl

/-- Applying sort writes never changes the override of an entry. -/
theorem applySortWrites_override (s : String) (ws : List (String × Int)) (e : MediaEntry) :
    (applySortWrites s ws e).title_override = e.title_override := by
  unfold applySortWrites
  split
  · exact (writesFold_fields ws e).2.2
  · rfl

/-- Entries of other series are left untouched by the renumbering writes. -/
theorem applySortWrites_other (s : String) (ws : List (String × Int)) (e : MediaEntry)
    (h : e.series ≠ s) : applySortWrites s ws e = e := by
  unfold applySortWrites
  rw [if_neg h]

/-- Filtering for any series commutes with the renumbering map. -/
theorem renumbered_filter_eq (ec : List MediaEntry) (s s2 : String)
    (ws : List (String × Int)) :
    (ec.map (applySortWrites s ws)).filter (fun e => e.series = s2) =
      (ec.filter (fun e => e.series = s2)).map (applySortWrites s ws) := by
  rw [List.filter_map]
  congr 1
  apply List.filter_congr
  intro e _
  simp [Function.comp, applySortWrites_series]

/-- The sorted members of a series, as produced inside `add_entry`, are a
permutation of the category entries of that series. -/
theorem sortBySeriesSort_perm (l : List MediaEntry) :
    (sortBySeriesSort l).Perm l :=
  List.perm_insertionSort _ l

/-- Member titles of a series stay duplicate-free when the category titles
are. -/
theorem series_titles_nodup (ec : List MediaEntry) (s : String)
    (hnd : (ec.map (fun e => e.title)).Nodup) :
    ((sortBySeriesSort (ec.filter (fun e => e.series = s))).map
      (fun e => e.title)).Nodup := by
  have hsub : (ec.filter (fun e => e.series = s)).Sublist ec := List.filter_sublist ec
  have hmapsub : ((ec.filter (fun e => e.series = s)).map (fun e => e.title)).Sublist
      (ec.map (fun e => e.title)) := hsub.map _
  have hfnd : ((ec.filter (fun e => e.series = s)).map (fun e => e.title)).Nodup :=
    hnd.sublist hmapsub
  have hperm : ((sortBySeriesSort (ec.filter (fun e => e.series = s))).map
      (fun e => e.title)).Perm ((ec.filter (fun e => e.series = s)).map (fun e => e.title)) :=
    (sortBySeriesSort_perm _).map _
  exact hperm.nodup_iff.mpr hfnd

/-- Sorted members of a series belong to the category. -/
theorem series_member_mem (ec : List MediaEntry) (s : String) (e : MediaEntry)
    (h : e ∈ sortBySeriesSort (ec.filter (fun e => e.series = s))) : e ∈ ec :=
  List.filter_sublist ec |>.subset ((sortBySeriesSort_perm _).mem_iff.mp h)

/-- Behaviour of the renumbering loop on the successful placement path:
the incoming entry receives the rank of the inserted position, every member
of the series receives its index in the re-derived title list, the
`series_sort` values of the series in the updated category are exactly
`0..k-1` for its `k` members, titles are extended by the new title only, and
other series are untouched. -/
theorem renumber_spec (ec : List MediaEntry) (s t : String) (nts : List String)
    (pos : Nat) (ov : Option String)
    (hnd : (ec.map (fun e => e.title)).Nodup)
    (ht : ∀ e ∈ ec, e.title ≠ t)
    (hpos : pos ≤ ((sortBySeriesSort (ec.filter (fun e => e.series = s))).map
      (fun e => e.title)).length)
    (hnts : nts = insertAt pos t ((sortBySeriesSort (ec.filter (fun e => e.series = s))).map
      (fun e => e.title))) :
    let es := sortBySeriesSort (ec.filter (fun e => e.series = s))
    let asg := assignFrom (buildTitleMap es) 0 nts
    let newE : MediaEntry := ⟨t, s, asg.2.getD 0, ov⟩
    let newCat := ec.map (applySortWrites s asg.1) ++ [newE]
    asg.2 = some (Int.ofNat pos)
    ∧ (∀ e ∈ ec, e.series = s → ∃ j, listIndex nts e.title = some j ∧
        applySortWrites s asg.1 e = { e with series_sort := Int.ofNat j })
    ∧ ((newCat.filter (fun e => e.series = s)).map (fun e => e.series_sort)).Perm
        ((List.range ((newCat.filter (fun e => e.series = s)).length)).map Int.ofNat)
    ∧ newCat.map (fun e => e.title) = ec.map (fun e => e.title) ++ [t]
    ∧ (∀ s2, ¬ s2 = s → newCat.filter (fun e => e.series = s2) =
        ec.filter (fun e => e.series = s2)) := by
  intro es asg newE newCat
  have hpos2 : pos ≤ (es.map (fun e => e.title)).length := hpos
  have hknd : (es.map (fun e => e.title)).Nodup := series_titles_nodup ec s hnd
  have htm : buildTitleMap es = es.map (fun e => (e.title, e)) := buildTitleMap_eq es hknd
  have htnotin : t ∉ es.map (fun e => e.title) := by
    intro hc
    rw [List.mem_map] at hc
    obtain ⟨e, he, hti⟩ := hc
    exact ht e (series_member_mem ec s e he) hti
  have hntsperm : nts.Perm (t :: es.map (fun e => e.title)) :=
    hnts ▸ insertAt_perm pos t (es.map (fun e => e.title))
  have hntnd : nts.Nodup := hntsperm.nodup_iff.mpr (List.nodup_cons.mpr ⟨htnotin, hknd⟩)
  have hlit : listIndex nts t = some pos := by
    rw [hnts]
    unfold insertAt
    have hnotin : ∀ y ∈ (es.map (fun e => e.title)).take pos, y ≠ t := by
      intro y hy hc
      exact htnotin (hc ▸ List.take_subset pos _ hy)
    rw [listIndex_append_notin _ t _ hnotin]
    congr 1
    rw [List.length_take]
    exact Nat.min_eq_left hpos2
  have hlooknone : lookupTM (buildTitleMap es) t = none := by
    rw [htm]
    exact (lookupTM_map_none_iff es t).mpr htnotin
  have hlooksome : ∀ x ∈ nts, x ≠ t → lookupTM (buildTitleMap es) x ≠ none := by
    intro x hx hxt hc
    rw [htm] at hc
    have hxk : x ∉ es.map (fun e => e.title) := (lookupTM_map_none_iff es x).mp hc
    rcases List.mem_cons.mp (hntsperm.subset hx) with rfl | h2
    · exact hxt rfl
    · exact hxk h2
  have hsnd : asg.2 = some (Int.ofNat pos) := by
    have := assignFrom_snd_unique (buildTitleMap es) nts 0 pos t hntnd hlit hlooknone
      (fun x hx hxt => hlooksome x hx hxt)
    simpa using this
  have hmember : ∀ e ∈ ec, e.series = s → ∃ j, listIndex nts e.title = some j ∧
      applySortWrites s asg.1 e = { e with series_sort := Int.ofNat j } := by
    intro e he hesr
    have hefil : e ∈ ec.filter (fun e => e.series = s) :=
      List.mem_filter.mpr ⟨he, by simp [hesr]⟩
    have hees : e ∈ es := (sortBySeriesSort_perm _).mem_iff.mpr hefil
    have hkey : e.title ∈ es.map (fun e => e.title) :=
      List.mem_map_of_mem (fun e => e.title) hees
    have hnmem : e.title ∈ nts := hntsperm.mem_iff.mpr (List.mem_cons_of_mem t hkey)
    obtain ⟨j, hj⟩ := listIndex_mem nts e.title hnmem
    refine ⟨j, hj, ?_⟩
    have hlookup : lookupTM (buildTitleMap es) e.title ≠ none := by
      rw [htm]
      intro hc
      exact ((lookupTM_map_none_iff es e.title).mp hc) hkey
    have happ := assignFrom_writes_member (buildTitleMap es) nts 0 j e hntnd hj hlookup
    unfold applySortWrites
    rw [if_pos hesr]
    simpa using happ
  refine ⟨hsnd, hmember, ?_, ?_, ?_⟩
  · have hnewE : newE.series = s := rfl
    have hfil : newCat.filter (fun e => e.series = s) =
        (ec.filter (fun e => e.series = s)).map (applySortWrites s asg.1) ++ [newE] := by
      show (ec.map (applySortWrites s asg.1) ++ [newE]).filter (fun e => e.series = s) = _
      rw [List.filter_append, renumbered_filter_eq]
      congr 1
      simp [hnewE]
    have hsorts : ((ec.filter (fun e => e.series = s)).map
          (applySortWrites s asg.1)).map (fun e => e.series_sort) =
        ((ec.filter (fun e => e.series = s)).map (fun e => e.title)).map
          (fun x => Int.ofNat ((listIndex nts x).getD 0)) := by
      rw [List.map_map, List.map_map]
      apply List.map_congr_left
      intro e hef
      obtain ⟨he, hesr⟩ := List.mem_filter.mp hef
      obtain ⟨j, hj, happ⟩ := hmember e he (by simpa using hesr)
      simp [Function.comp, happ, hj]
    have hnewsort : newE.series_sort = Int.ofNat ((listIndex nts t).getD 0) := by
      have h1 : newE.series_sort = asg.2.getD 0 := rfl
      rw [h1, hsnd, hlit]
      rfl
    have htperm : ((ec.filter (fun e => e.series = s)).map (fun e => e.title)).Perm
        (es.map (fun e => e.title)) :=
      ((sortBySeriesSort_perm _).map _).symm
    have hchain : ((newCat.filter (fun e => e.series = s)).map (fun e => e.series_sort)).Perm
        (nts.map (fun x => Int.ofNat ((listIndex nts x).getD 0))) := by
      rw [hfil, List.map_append, hsorts]
      have h1 : ((((ec.filter (fun e => e.series = s)).map (fun e => e.title)).map
            (fun x => Int.ofNat ((listIndex nts x).getD 0))) ++
            [newE].map (fun e => e.series_sort)).Perm
          (((t :: es.map (fun e => e.title)).map
            (fun x => Int.ofNat ((listIndex nts x).getD 0)))) := by
        have hmap : ([newE].map (fun e => e.series_sort)) =
            [Int.ofNat ((listIndex nts t).getD 0)] :=
          congrArg (fun x => [x]) hnewsort
        rw [hmap, List.map_cons]
        refine List.Perm.trans (List.perm_append_comm) ?_
        exact List.Perm.cons _ (htperm.map _)
      exact h1.trans ((hntsperm.map _).symm)
    have hrange : nts.map (fun x => Int.ofNat ((listIndex nts x).getD 0)) =
        (List.range nts.length).map Int.ofNat := by
      have h2 : nts.map (fun x => Int.ofNat ((listIndex nts x).getD 0)) =
          (nts.map (fun x => (listIndex nts x).getD 0)).map Int.ofNat := by
        rw [List.map_map]
        rfl
      rw [h2, map_listIndex_range nts hntnd]
    have hlen : nts.length = (newCat.filter (fun e => e.series = s)).length := by
      have hl1 : (newCat.filter (fun e => e.series = s)).length =
          (ec.filter (fun e => e.series = s)).length + 1 := by
        rw [hfil]
        simp
      have hl2 : nts.length = (es.map (fun e => e.title)).length + 1 := by
        rw [hnts, insertAt_length]
      have hl3 : es.length = (ec.filter (fun e => e.series = s)).length :=
        (sortBySeriesSort_perm _).length_eq
      simp [hl1, hl2, hl3]
    rw [hrange] at hchain
    rw [← hlen]
    exact hchain
  · show (ec.map (applySortWrites s asg.1) ++ [newE]).map (fun e => e.title) = _
    rw [List.map_append, List.map_map]
    congr 1
    apply List.map_congr_left
    intro e _
    exact applySortWrites_title s asg.1 e
  · intro s2 hs2
    show (ec.map (applySortWrites s asg.1) ++ [newE]).filter (fun e => e.series = s2) = _
    rw [List.filter_append, renumbered_filter_eq]
    have hnewfil : ([newE].filter (fun e => e.series = s2)) = [] := by
      have hcond : ¬ ((decide (newE.series = s2)) = true) := by
        simp only [decide_eq_true_eq]
        intro hc
        exact hs2 (Eq.trans (Eq.symm hc) (rfl : newE.series = s))
      simp only [List.filter_cons, List.filter_nil]
      rw [if_neg hcond]
    rw [hnewfil, List.append_nil]
    have hcg : (ec.filter (fun e => e.series = s2)).map (applySortWrites s asg.1) =
        (ec.filter (fun e => e.series = s2)).map id := by
      apply List.map_congr_left
      intro e hef
      obtain ⟨_, hesr⟩ := List.mem_filter.mp hef
      have hne : e.series ≠ s := by
        simp only [decide_eq_true_eq] at hesr
        rw [hesr]
        exact hs2
      simp [applySortWrites_other s asg.1 e hne]
    rw [hcg, List.map_id]

/-- A resolved series name is never empty: list choices are existing series
names (nonempty via the anchored regex), `NONE` resolves to the (nonempty)
title, and an empty custom answer falls back to the title. -/
theorem handle_series_nonempty (t : String) (ec : List MediaEntry)
    (sa ca : Option String) (v : String)
    (htitle : ¬ t = "")
    (hsa : ∀ w, sa = some w → ¬ w = "")
    (h : handle_series t ec sa ca = some v) : ¬ v = "" := by
  intro hv
  subst hv
  by_cases hpf : possible_franchises t ec = []
  · cases ca with
    | none => simp [handle_series, hpf] at h
    | some s0 =>
      simp [handle_series, hpf] at h
      by_cases hs0 : s0 = ""
      · rw [if_pos hs0] at h
        exact htitle h
      · rw [if_neg hs0] at h
        exact hs0 h
  · cases sa with
    | none => simp [handle_series, hpf] at h
    | some choice =>
      have hcne := hsa choice rfl
      by_cases hn : choice = "NONE"
      · simp [handle_series, hpf, hn] at h
        exact htitle h
      · by_cases hc : choice = "CUSTOM"
        · cases ca with
          | none => simp [handle_series, hpf, hn, hc] at h
          | some s0 =>
            simp [handle_series, hpf, hn, hc] at h
            by_cases hs0 : s0 = ""
            · rw [if_pos hs0] at h
              exact htitle h
            · rw [if_neg hs0] at h
              exact hs0 h
        · simp [handle_series, hpf, hn, hc] at h
          exact hcne h

/-- A successful lookup exhibits a catalog pair. -/
theorem lookupCat_mem : ∀ (d : Catalog) (c : String) (es : List MediaEntry),
    lookupCat d c = some es → (c, es) ∈ d := by
  intro d
  induction d with
  | nil => intro c es h; simp [lookupCat] at h
  | cons p d ih =>
    intro c es h
    rw [lookupCat] at h
    by_cases hp : p.1 = c
    · rw [if_pos hp] at h
      obtain rfl := Option.some.inj h
      have hpe : (c, p.2) = p := Prod.ext hp.symm rfl
      rw [hpe]
      exact List.mem_cons_self p d
    · rw [if_neg hp] at h
      exact List.mem_cons_of_mem p (ih c es h)

/-- Updating a present key makes later lookups of that key see the new
value. -/
theorem lookupCat_setCat : ∀ (d : Catalog) (c : String) (v es : List MediaEntry),
    lookupCat d c = some es → lookupCat (setCat d c v) c = some v := by
  intro d
  induction d with
  | nil => intro c v es h; simp [lookupCat] at h
  | cons p d ih =>
    intro c v es h
    unfold setCat
    rw [List.map_cons]
    by_cases hp : p.1 = c
    · rw [if_pos hp, lookupCat, if_pos rfl]
    · rw [if_neg hp, lookupCat, if_neg hp]
      rw [lookupCat, if_neg hp] at h
      exact ih c v es h

/-- Every pair of the updated catalog is the updated pair or an untouched
pair of another key. -/
theorem setCat_mem (d : Catalog) (c : String) (v : List MediaEntry)
    (p2 : String × List MediaEntry) (h : p2 ∈ setCat d c v) :
    p2 = (c, v) ∨ (p2 ∈ d ∧ ¬ p2.1 = c) := by
  unfold setCat at h
  rw [List.mem_map] at h
  obtain ⟨p, hp, hp2⟩ := h
  by_cases hc : p.1 = c
  · rw [if_pos hc] at hp2
    exact Or.inl hp2.symm
  · rw [if_neg hc] at hp2
    exact Or.inr ⟨hp2 ▸ hp, hp2 ▸ hc⟩

/-- An empty sorted member list means the series has no members. -/
theorem sortBySeriesSort_eq_nil (l : List MediaEntry)
    (h : sortBySeriesSort l = []) : l = [] := by
  have hlen := (sortBySeriesSort_perm l).length_eq
  rw [h] at hlen
  exact List.length_eq_zero.mp hlen.symm

/-- The keys of the title dict are the member titles in order. -/
theorem buildTitleMap_keys (es : List MediaEntry)
    (hnd : (es.map (fun e => e.title)).Nodup) :
    (buildTitleMap es).map (fun p => p.1) = es.map (fun e => e.title) := by
  rw [buildTitleMap_eq es hnd, List.map_map]
  rfl

/-- Unfolding of `add_entry` on the successful placement path: the new entry
is built from the trimmed title, resolved series, loop-assigned rank and
trimmed override, the member entries receive the renumbering writes, and the
extended category is stored back under the resolved category key. -/
theorem add_entry_success_eq
    (jsonData : Catalog) (category series : String) (inc : Bool)
    (a : FirstAnswers) (sa ca : Option String) (pl : String)
    (ec : List MediaEntry) (s : String) (nts : List String)
    (h1 : ¬ pyStrip a.title = "")
    (hec : lookupCat jsonData (resolveCategory category a) = some ec)
    (hdup : ec.any (fun e => e.title = pyStrip a.title) = false)
    (hs : resolveSeries series (pyStrip a.title) ec sa ca = some s)
    (hse : ¬ s = "")
    (hes : ¬ sortBySeriesSort (ec.filter (fun e => e.series = s)) = [])
    (hnt : placementNewTitles (pyStrip a.title) pl
        ((buildTitleMap (sortBySeriesSort (ec.filter (fun e => e.series = s)))).map
          (fun p => p.1)) = some nts) :
    add_entry jsonData category series inc (some a) sa ca (some pl) =
      (.added (resolveCategory category a)
        ⟨pyStrip a.title, s,
          ((assignFrom (buildTitleMap (sortBySeriesSort (ec.filter (fun e => e.series = s))))
            0 nts).2).getD 0,
          if pyStrip (if inc then a.title_override else "") = "" then none
          else some (pyStrip (if inc then a.title_override else ""))⟩,
       setCat jsonData (resolveCategory category a)
         (ec.map (applySortWrites s
            (assignFrom (buildTitleMap (sortBySeriesSort (ec.filter (fun e => e.series = s))))
              0 nts).1) ++
          [⟨pyStrip a.title, s,
            ((assignFrom (buildTitleMap (sortBySeriesSort (ec.filter (fun e => e.series = s))))
              0 nts).2).getD 0,
            if pyStrip (if inc then a.title_override else "") = "" then none
            else some (pyStrip (if inc then a.title_override else ""))⟩])) := by
  simp [add_entry, h1, hec, hdup, hs, hse, hes, hnt]


/-- The member list built by `add_entry` is ascending in `series_sort`. -/
theorem sortBySeriesSort_sorted (l : List MediaEntry) :
    List.Pairwise (fun e1 e2 => e1.series_sort ≤ e2.series_sort) (sortBySeriesSort l) := by
  letI : IsTotal MediaEntry (fun e1 e2 => e1.series_sort ≤ e2.series_sort) :=
    ⟨fun a b => Int.le_total a.series_sort b.series_sort⟩
  letI : IsTrans MediaEntry (fun e1 e2 => e1.series_sort ≤ e2.series_sort) :=
    ⟨fun a b c h1 h2 => le_trans h1 h2⟩
  exact List.sorted_insertionSort _ l

/-- The fresh-title consequence of a passed duplicate check. -/
theorem dup_check_fresh (ec : List MediaEntry) (t : String)
    (hdup : ec.any (fun e => e.title = t) = false) : ∀ e ∈ ec, e.title ≠ t := by
  intro e he
  rw [List.any_eq_false] at hdup
  have := hdup e he
  simpa using this

/-- Counterexample for C8 as stated: category `Books` holds series `S` with
the non-contiguous `series_sort` values 0 and 2, yet appending `B3` at the
end succeeds — no data-integrity error is raised — and the renumbering
silently rewrites the ranks to the dense 0,1,2. -/
theorem c8_counterexample :
    ¬ seriesDense ([(⟨"B1", "S", 0, none⟩ : MediaEntry), ⟨"B2", "S", 2, none⟩].filter
      (fun e => e.series = "S")) ∧
    add_entry [("Books", [⟨"B1", "S", 0, none⟩, ⟨"B2", "S", 2, none⟩])] "Books" "S" false
      (some ⟨"", "B3", ""⟩) none none (some "At the end") =
      (.added "Books" ⟨"B3", "S", 2, none⟩,
       [("Books", [⟨"B1", "S", 0, none⟩, ⟨"B2", "S", 1, none⟩, ⟨"B3", "S", 2, none⟩])]) := by
  decide

/-- C8 amended: `add_entry` performs no contiguity check.  Even when the
existing `series_sort` values of the target series are not a dense
`0..k-1` range, an insertion with any offered placement proceeds normally —
the outcome is `added`, not an error — and the full renumbering leaves the
affected series with exactly the dense range `0..k` afterwards. -/
theorem c8_no_integrity_check
    (jsonData : Catalog) (category series : String) (inc : Bool)
    (a : FirstAnswers) (sa ca : Option String) (pl : String)
    (ec : List MediaEntry) (s : String) (nts : List String)
    (h1 : ¬ pyStrip a.title = "")
    (hec : lookupCat jsonData (resolveCategory category a) = some ec)
    (hdup : ec.any (fun e => e.title = pyStrip a.title) = false)
    (hnd : (ec.map (fun e => e.title)).Nodup)
    (hs : resolveSeries series (pyStrip a.title) ec sa ca = some s)
    (hse : ¬ s = "")
    (hes : ¬ sortBySeriesSort (ec.filter (fun e => e.series = s)) = [])
    (hcorrupt : ¬ seriesDense (ec.filter (fun e => e.series = s)))
    (hnt : placementNewTitles (pyStrip a.title) pl
        ((buildTitleMap (sortBySeriesSort (ec.filter (fun e => e.series = s)))).map
          (fun p => p.1)) = some nts) :
    ∃ e2 d2, add_entry jsonData category series inc (some a) sa ca (some pl) =
        (.added (resolveCategory category a) e2, d2) ∧
      ∃ es2, lookupCat d2 (resolveCategory category a) = some es2 ∧
        seriesDense (es2.filter (fun e => e.series = s)) := by
  have hfresh : ∀ e ∈ ec, e.title ≠ pyStrip a.title := dup_check_fresh ec _ hdup
  have hkeys : (buildTitleMap (sortBySeriesSort (ec.filter (fun e => e.series = s)))).map
      (fun p => p.1) =
      (sortBySeriesSort (ec.filter (fun e => e.series = s))).map (fun e => e.title) :=
    buildTitleMap_keys _ (series_titles_nodup ec s hnd)
  have hnt2 := hnt
  rw [hkeys] at hnt2
  obtain ⟨pos, hpos, hnts⟩ := placementNewTitles_shape _ _ _ _ hnt2
  have hspec := renumber_spec ec s (pyStrip a.title) nts pos
    (if pyStrip (if inc then a.title_override else "") = "" then none
     else some (pyStrip (if inc then a.title_override else "")))
    hnd hfresh hpos hnts
  obtain ⟨hsnd, hmem, hdense, htitles, hother⟩ := hspec
  have heq := add_entry_success_eq jsonData category series inc a sa ca pl ec s nts
    h1 hec hdup hs hse hes hnt
  refine ⟨_, _, heq, _, lookupCat_setCat jsonData _ _ ec hec, ?_⟩
  exact hdense

/-- Witness for the amended C8: inserting `B3` at the end of the corrupted
series with ranks 0 and 2 succeeds and leaves the dense range 0,1,2. -/
theorem c8_witness :
    ∃ e2 d2,
      add_entry [("Books", [⟨"B1", "S", 0, none⟩, ⟨"B2", "S", 2, none⟩])] "Books" "S" false
          (some ⟨"", "B3", ""⟩) none none (some "At the end") =
        (.added (resolveCategory "Books" ⟨"", "B3", ""⟩) e2, d2) ∧
      ∃ es2, lookupCat d2 (resolveCategory "Books" ⟨"", "B3", ""⟩) = some es2 ∧
        seriesDense (es2.filter (fun e => e.series = "S")) :=
  c8_no_integrity_check [("Books", [⟨"B1", "S", 0, none⟩, ⟨"B2", "S", 2, none⟩])]
    "Books" "S" false ⟨"", "B3", ""⟩ none none "At the end"
    [⟨"B1", "S", 0, none⟩, ⟨"B2", "S", 2, none⟩] "S" ["B1", "B2", "B3"]
    (by decide) (by decide) (by decide) (by decide) (by decide) (by decide)
    (by decide) (by decide) (by decide)

/-- C2: placement ranks.  With the target series already holding `k ≥ 1`
members in the category (listed ascending by `series_sort`, as the first
conjunct states), the new entry's zero-based rank is 0 for `At the start`,
`k` for `At the end`, and `p + 1` for a placement after the member at
position `p`; in every case each existing member of the series receives
`series_sort` equal to the index of its title in the re-derived title list.
With zero existing members the new entry's rank is 0 unconditionally and no
placement answer is consumed. -/
theorem c2_placement_ranks
    (jsonData : Catalog) (category series : String) (inc : Bool)
    (a : FirstAnswers) (sa ca : Option String)
    (ec : List MediaEntry) (s : String)
    (h1 : ¬ pyStrip a.title = "")
    (hec : lookupCat jsonData (resolveCategory category a) = some ec)
    (hdup : ec.any (fun e => e.title = pyStrip a.title) = false)
    (hnd : (ec.map (fun e => e.title)).Nodup)
    (hs : resolveSeries series (pyStrip a.title) ec sa ca = some s)
    (hse : ¬ s = "") :
    let t := pyStrip a.title
    let rc := resolveCategory category a
    let l := sortBySeriesSort (ec.filter (fun e => e.series = s))
    List.Pairwise (fun e1 e2 => e1.series_sort ≤ e2.series_sort) l
    ∧ (¬ l = [] →
        ∃ e2 d2, add_entry jsonData category series inc (some a) sa ca
            (some "At the start") = (.added rc e2, d2) ∧
          e2.title = t ∧ e2.series = s ∧ e2.series_sort = 0 ∧
          ∃ es2, lookupCat d2 rc = some es2 ∧
            ∀ e ∈ ec, e.series = s → ∃ j,
              listIndex (t :: l.map (fun e => e.title)) e.title = some j ∧
              { e with series_sort := Int.ofNat j } ∈ es2)
    ∧ (¬ l = [] →
        ∃ e2 d2, add_entry jsonData category series inc (some a) sa ca
            (some "At the end") = (.added rc e2, d2) ∧
          e2.title = t ∧ e2.series = s ∧ e2.series_sort = Int.ofNat l.length ∧
          ∃ es2, lookupCat d2 rc = some es2 ∧
            ∀ e ∈ ec, e.series = s → ∃ j,
              listIndex (l.map (fun e => e.title) ++ [t]) e.title = some j ∧
              { e with series_sort := Int.ofNat j } ∈ es2)
    ∧ (∀ (p : Nat) (hp : p < l.length) (pl : String),
        pl = (l.get ⟨p, hp⟩).title →
        ¬ pl = "At the start" → ¬ pl = "At the end" →
        ∃ e2 d2, add_entry jsonData category series inc (some a) sa ca
            (some pl) = (.added rc e2, d2) ∧
          e2.title = t ∧ e2.series = s ∧ e2.series_sort = Int.ofNat (p + 1) ∧
          ∃ es2, lookupCat d2 rc = some es2 ∧
            ∀ e ∈ ec, e.series = s → ∃ j,
              listIndex (insertAt (p + 1) t (l.map (fun e => e.title))) e.title = some j ∧
              { e with series_sort := Int.ofNat j } ∈ es2)
    ∧ (l = [] → ∀ pa : Option String,
        ∃ e2 d2, add_entry jsonData category series inc (some a) sa ca pa =
            (.added rc e2, d2) ∧
          e2.title = t ∧ e2.series = s ∧ e2.series_sort = 0) := by
  intro t rc l
  have hfresh : ∀ e ∈ ec, e.title ≠ t := dup_check_fresh ec t hdup
  have hknd := series_titles_nodup ec s hnd
  have hkeys : (buildTitleMap l).map (fun p => p.1) = l.map (fun e => e.title) :=
    buildTitleMap_keys l hknd
  refine ⟨sortBySeriesSort_sorted _, ?_, ?_, ?_, ?_⟩
  · intro hl
    have hnt : placementNewTitles t "At the start" ((buildTitleMap l).map (fun p => p.1)) =
        some (t :: l.map (fun e => e.title)) := by
      unfold placementNewTitles
      rw [if_pos rfl, hkeys]
    have hnts : t :: l.map (fun e => e.title) =
        insertAt 0 t (l.map (fun e => e.title)) := rfl
    have hspec := renumber_spec ec s t (t :: l.map (fun e => e.title)) 0
      (if pyStrip (if inc then a.title_override else "") = "" then none
       else some (pyStrip (if inc then a.title_override else "")))
      hnd hfresh (Nat.zero_le _) hnts
    obtain ⟨hsnd, hmem, _, _, _⟩ := hspec
    have heq := add_entry_success_eq jsonData category series inc a sa ca
      "At the start" ec s (t :: l.map (fun e => e.title)) h1 hec hdup hs hse hl hnt
    refine ⟨_, _, heq, rfl, rfl, ?_, ?_⟩
    · show ((assignFrom (buildTitleMap l) 0 (t :: l.map (fun e => e.title))).2).getD 0 = 0
      rw [hsnd]
      rfl
    · refine ⟨_, lookupCat_setCat jsonData _ _ ec hec, ?_⟩
      intro e he hesr
      obtain ⟨j, hj, happ⟩ := hmem e he hesr
      refine ⟨j, hj, ?_⟩
      rw [← happ]
      exact List.mem_append_left _ (List.mem_map_of_mem _ he)
  · intro hl
    have hnt : placementNewTitles t "At the end" ((buildTitleMap l).map (fun p => p.1)) =
        some (l.map (fun e => e.title) ++ [t]) := by
      unfold placementNewTitles
      rw [if_neg (by decide), if_pos rfl, hkeys]
    have hnts : l.map (fun e => e.title) ++ [t] =
        insertAt (l.map (fun e => e.title)).length t (l.map (fun e => e.title)) := by
      unfold insertAt
      rw [List.take_length, List.drop_length]
    have hspec := renumber_spec ec s t (l.map (fun e => e.title) ++ [t])
      (l.map (fun e => e.title)).length
      (if pyStrip (if inc then a.title_override else "") = "" then none
       else some (pyStrip (if inc then a.title_override else "")))
      hnd hfresh (le_refl _) hnts
    obtain ⟨hsnd, hmem, _, _, _⟩ := hspec
    have heq := add_entry_success_eq jsonData category series inc a sa ca
      "At the end" ec s (l.map (fun e => e.title) ++ [t]) h1 hec hdup hs hse hl hnt
    refine ⟨_, _, heq, rfl, rfl, ?_, ?_⟩
    · show ((assignFrom (buildTitleMap l) 0 (l.map (fun e => e.title) ++ [t])).2).getD 0 =
        Int.ofNat l.length
      rw [hsnd]
      simp
    · refine ⟨_, lookupCat_setCat jsonData _ _ ec hec, ?_⟩
      intro e he hesr
      obtain ⟨j, hj, happ⟩ := hmem e he hesr
      refine ⟨j, hj, ?_⟩
      rw [← happ]
      exact List.mem_append_left _ (List.mem_map_of_mem _ he)
  · intro p hp pl hpl hps hpe
    have hplt : p < (l.map (fun e => e.title)).length := by simpa using hp
    have hli : listIndex (l.map (fun e => e.title)) pl = some p := by
      have hg : (l.map (fun e => e.title))[p] = (l.get ⟨p, hp⟩).title := by
        rw [List.getElem_map]
        rfl
      rw [hpl, ← hg]
      exact listIndex_get_nodup _ hknd p hplt
    have hnt : placementNewTitles t pl ((buildTitleMap l).map (fun p => p.1)) =
        some (insertAt (p + 1) t (l.map (fun e => e.title))) := by
      unfold placementNewTitles
      rw [if_neg hps, if_neg hpe, hkeys, hli]
      rfl
    have hl : ¬ l = [] := by
      intro hc
      rw [hc] at hp
      simp at hp
    have hspec := renumber_spec ec s t (insertAt (p + 1) t (l.map (fun e => e.title))) (p + 1)
      (if pyStrip (if inc then a.title_override else "") = "" then none
       else some (pyStrip (if inc then a.title_override else "")))
      hnd hfresh hplt rfl
    obtain ⟨hsnd, hmem, _, _, _⟩ := hspec
    have heq := add_entry_success_eq jsonData category series inc a sa ca
      pl ec s (insertAt (p + 1) t (l.map (fun e => e.title))) h1 hec hdup hs hse hl hnt
    refine ⟨_, _, heq, rfl, rfl, ?_, ?_⟩
    · show ((assignFrom (buildTitleMap l) 0
          (insertAt (p + 1) t (l.map (fun e => e.title)))).2).getD 0 = Int.ofNat (p + 1)
      rw [hsnd]
      rfl
    · refine ⟨_, lookupCat_setCat jsonData _ _ ec hec, ?_⟩
      intro e he hesr
      obtain ⟨j, hj, happ⟩ := hmem e he hesr
      refine ⟨j, hj, ?_⟩
      rw [← happ]
      exact List.mem_append_left _ (List.mem_map_of_mem _ he)
  · intro hl pa
    refine ⟨⟨t, s, 0,
      if pyStrip (if inc then a.title_override else "") = "" then none
      else some (pyStrip (if inc then a.title_override else ""))⟩,
      setCat jsonData rc (ec ++ [⟨t, s, 0,
        if pyStrip (if inc then a.title_override else "") = "" then none
        else some (pyStrip (if inc then a.title_override else ""))⟩]), ?_, rfl, rfl, rfl⟩
    have hl2 : sortBySeriesSort (ec.filter (fun e => e.series = s)) = [] := hl
    simp [add_entry, h1, hec, hdup, hs, hse, hl2]

/-- Witness for C2: inserting `Ep0` at the start of the two-member series
`Show A` (members `Ep1` at rank 0 and `Ep2` at rank 1). -/
theorem c2_witness :
    ∃ e2 d2,
      add_entry [("Shows", [⟨"Ep1", "Show A", 0, none⟩, ⟨"Ep2", "Show A", 1, none⟩])]
          "Shows" "Show A" false (some ⟨"", "Ep0", ""⟩) none none (some "At the start") =
        (.added (resolveCategory "Shows" ⟨"", "Ep0", ""⟩) e2, d2) ∧
      e2.title = pyStrip "Ep0" ∧ e2.series = "Show A" ∧ e2.series_sort = 0 ∧
      ∃ es2, lookupCat d2 (resolveCategory "Shows" ⟨"", "Ep0", ""⟩) = some es2 ∧
        ∀ e ∈ [(⟨"Ep1", "Show A", 0, none⟩ : MediaEntry), ⟨"Ep2", "Show A", 1, none⟩],
          e.series = "Show A" → ∃ j,
            listIndex (pyStrip "Ep0" ::
              (sortBySeriesSort
                ([(⟨"Ep1", "Show A", 0, none⟩ : MediaEntry),
                  ⟨"Ep2", "Show A", 1, none⟩].filter
                  (fun e => e.series = "Show A"))).map (fun e => e.title)) e.title = some j ∧
            { e with series_sort := Int.ofNat j } ∈ es2 :=
  (c2_placement_ranks [("Shows", [⟨"Ep1", "Show A", 0, none⟩, ⟨"Ep2", "Show A", 1, none⟩])]
    "Shows" "Show A" false ⟨"", "Ep0", ""⟩ none none
    [⟨"Ep1", "Show A", 0, none⟩, ⟨"Ep2", "Show A", 1, none⟩] "Show A"
    (by decide) (by decide) (by decide) (by decide) (by decide) (by decide)).2.1 (by decide)


/-- Density for every series of the updated category, combined from the
affected series and the untouched ones. -/
theorem density_cases (ec newCat : List MediaEntry) (s : String)
    (hmapser : newCat.map (fun e => e.series) = ec.map (fun e => e.series) ++ [s])
    (haff : seriesDense (newCat.filter (fun e => e.series = s)))
    (hother : ∀ s2, ¬ s2 = s →
      newCat.filter (fun e => e.series = s2) = ec.filter (fun e => e.series = s2))
    (hold : ∀ s2 ∈ ec.map (fun e => e.series),
      seriesDense (ec.filter (fun e => e.series = s2))) :
    ∀ s2 ∈ newCat.map (fun e => e.series),
      seriesDense (newCat.filter (fun e => e.series = s2)) := by
  intro s2 hs2
  by_cases h : s2 = s
  · rw [h]
    exact haff
  · rw [hother s2 h]
    rw [hmapser] at hs2
    rcases List.mem_append.mp hs2 with h2 | h2
    · exact hold s2 h2
    · simp at h2
      exact absurd h2 h

/-- The full catalog invariants hold after storing an updated category whose
titles gained only the fresh new title and whose series all satisfy the
per-series obligations. -/
theorem invariants_after_insert
    (jsonData : Catalog) (rc : String) (ec newCat : List MediaEntry) (t : String)
    (hinv : catalogInvariants jsonData)
    (hec : lookupCat jsonData rc = some ec)
    (htitles : newCat.map (fun e => e.title) = ec.map (fun e => e.title) ++ [t])
    (hfresh : ∀ e ∈ ec, e.title ≠ t)
    (hseries : ∀ x ∈ newCat, ¬ x.series = "")
    (hdense : ∀ s2 ∈ newCat.map (fun e => e.series),
      seriesDense (newCat.filter (fun e => e.series = s2))) :
    catalogInvariants (setCat jsonData rc newCat) := by
  intro p hp
  rcases setCat_mem jsonData rc newCat p hp with rfl | ⟨hpd, _⟩
  · have hnd := (hinv (rc, ec) (lookupCat_mem jsonData rc ec hec)).1
    refine ⟨?_, hseries, hdense⟩
    show (newCat.map (fun e => e.title)).Nodup
    rw [htitles]
    apply List.Nodup.append hnd (List.nodup_singleton t)
    intro x hx1 hx2
    rw [List.mem_singleton] at hx2
    subst hx2
    rw [List.mem_map] at hx1
    obtain ⟨e0, he0, het⟩ := hx1
    exact hfresh e0 he0 het
  · exact hinv p hpd

/-- A one-member series with rank 0 is dense. -/
theorem seriesDense_singleton (e : MediaEntry) (h : e.series_sort = 0) : seriesDense [e] := by
  unfold seriesDense
  simp only [List.map_cons, List.map_nil, List.length_cons, List.length_nil, h]
  decide

/-- C1: from any catalog satisfying the data-model invariants, every
successful insertion (any conforming prompt answers, any placement) leaves
the affected series of the target category with `series_sort` values that
are exactly the dense range `0..k-1` for its `k` members — and the full
invariants hold again, so the property holds after each insertion of any
sequence of insertions into an initially empty series. -/
theorem c1_insert_dense_invariants
    (jsonData : Catalog) (category series : String) (inc : Bool)
    (fa : Option FirstAnswers) (sa ca pa : Option String)
    (hinv : catalogInvariants jsonData)
    (hsa : ∀ v, sa = some v → ¬ v = "")
    (c : String) (e : MediaEntry) (d2 : Catalog)
    (hadd : add_entry jsonData category series inc fa sa ca pa = (.added c e, d2)) :
    (∃ es2, lookupCat d2 c = some es2 ∧
      seriesDense (es2.filter (fun x => x.series = e.series))) ∧
    catalogInvariants d2 := by
  cases fa with
  | none => simp [add_entry] at hadd
  | some a =>
    by_cases h1 : pyStrip a.title = ""
    · simp [add_entry, h1] at hadd
    · cases hec : lookupCat jsonData (resolveCategory category a) with
      | none => simp [add_entry, h1, hec] at hadd
      | some ec =>
        by_cases hdup : ec.any (fun x => x.title = pyStrip a.title) = true
        · simp [add_entry, h1, hec, hdup] at hadd
        · have hdupf : ec.any (fun x => x.title = pyStrip a.title) = false := by
            simpa using hdup
          have hfresh := dup_check_fresh ec (pyStrip a.title) hdupf
          cases hs : resolveSeries series (pyStrip a.title) ec sa ca with
          | none => simp [add_entry, h1, hec, hdupf, hs] at hadd
          | some s =>
            have hse : ¬ s = "" := by
              unfold resolveSeries at hs
              by_cases hsp : series = ""
              · rw [if_pos hsp] at hs
                exact handle_series_nonempty _ ec sa ca s h1 hsa hs
              · rw [if_neg hsp] at hs
                obtain rfl := Option.some.inj hs
                exact hsp
            obtain ⟨hnd, hser0, hdense0⟩ := hinv (resolveCategory category a, ec)
              (lookupCat_mem jsonData _ ec hec)
            by_cases hesn : sortBySeriesSort (ec.filter (fun x => x.series = s)) = []
            · have hfe : ec.filter (fun x => x.series = s) = [] :=
                sortBySeriesSort_eq_nil _ hesn
              simp only [add_entry, h1, hec, hdupf, hs, hse, hesn, if_neg, if_pos,
                Prod.mk.injEq, AddResult.added.injEq] at hadd
              simp [h1, hse] at hadd
              obtain ⟨⟨hc, he⟩, hd⟩ := hadd
              subst hc
              subst he
              subst hd
              constructor
              · refine ⟨_, lookupCat_setCat jsonData _ _ ec hec, ?_⟩
                show seriesDense ((ec ++ [_]).filter (fun x => x.series = s))
                rw [List.filter_append, hfe]
                have hone : seriesDense [(⟨pyStrip a.title, s, 0,
                    if pyStrip (if inc then a.title_override else "") = "" then none
                    else some (pyStrip (if inc then a.title_override else ""))⟩ :
                    MediaEntry)] := seriesDense_singleton _ rfl
                simpa using hone
              · apply invariants_after_insert jsonData _ ec _ (pyStrip a.title) hinv hec
                · simp
                · exact hfresh
                · intro x hx
                  rcases List.mem_append.mp hx with hx2 | hx2
                  · exact hser0 x hx2
                  · rw [List.mem_singleton] at hx2
                    subst hx2
                    exact hse
                · apply density_cases ec _ s
                  · simp
                  · rw [List.filter_append, hfe]
                    have hone : seriesDense [(⟨pyStrip a.title, s, 0,
                        if pyStrip (if inc then a.title_override else "") = "" then none
                        else some (pyStrip (if inc then a.title_override else ""))⟩ :
                        MediaEntry)] := seriesDense_singleton _ rfl
                    simpa using hone
                  · intro s2 hs2
                    rw [List.filter_append]
                    have hf2 : ([(⟨pyStrip a.title, s, 0,
                        if pyStrip (if inc then a.title_override else "") = "" then none
                        else some (pyStrip (if inc then a.title_override else ""))⟩ :
                        MediaEntry)].filter (fun x => x.series = s2)) = [] := by
                      simp only [List.filter_cons, List.filter_nil]
                      rw [if_neg]
                      simp only [decide_eq_true_eq]
                      intro hcon
                      exact hs2 ((Eq.symm hcon).trans rfl)
                    rw [hf2, List.append_nil]
                  · exact hdense0
            · cases pa with
              | none => simp [add_entry, h1, hec, hdupf, hs, hse, hesn] at hadd
              | some pl =>
                cases hnt : placementNewTitles (pyStrip a.title) pl
                    ((buildTitleMap (sortBySeriesSort (ec.filter
                      (fun x => x.series = s)))).map (fun p => p.1)) with
                | none => simp [add_entry, h1, hec, hdupf, hs, hse, hesn, hnt] at hadd
                | some nts =>
                  have heq := add_entry_success_eq jsonData category series inc a sa ca pl
                    ec s nts h1 hec hdupf hs hse hesn hnt
                  rw [heq] at hadd
                  simp only [Prod.mk.injEq, AddResult.added.injEq] at hadd
                  obtain ⟨⟨hc, he⟩, hd⟩ := hadd
                  subst hc
                  subst he
                  subst hd
                  have hkeys := buildTitleMap_keys _ (series_titles_nodup ec s hnd)
                  have hnt2 := hnt
                  rw [hkeys] at hnt2
                  obtain ⟨pos, hpos, hnts⟩ := placementNewTitles_shape _ _ _ _ hnt2
                  have hspec := renumber_spec ec s (pyStrip a.title) nts pos
                    (if pyStrip (if inc then a.title_override else "") = "" then none
                     else some (pyStrip (if inc then a.title_override else "")))
                    hnd hfresh hpos hnts
                  obtain ⟨hsnd, hmem, hdense3, htitles3, hother3⟩ := hspec
                  constructor
                  · exact ⟨_, lookupCat_setCat jsonData _ _ ec hec, hdense3⟩
                  · apply invariants_after_insert jsonData _ ec _ (pyStrip a.title) hinv hec
                    · exact htitles3
                    · exact hfresh
                    · intro x hx
                      rcases List.mem_append.mp hx with hx2 | hx2
                      · rw [List.mem_map] at hx2
                        obtain ⟨e0, he0, hxe⟩ := hx2
                        subst hxe
                        rw [applySortWrites_series]
                        exact hser0 e0 he0
                      · rw [List.mem_singleton] at hx2
                        subst hx2
                        exact hse
                    · apply density_cases ec _ s
                      · rw [List.map_append, List.map_map]
                        congr 1
                        · apply List.map_congr_left
                          intro e0 _
                          exact applySortWrites_series s _ e0
                      · exact hdense3
                      · exact hother3
                      · exact hdense0

/-- Witness for C1: inserting `Ep0` at the start of `Show A` from an
invariant-satisfying catalog yields the dense ranks 0,1,2 and preserves the
invariants. -/
theorem c1_witness :
    (∃ es2, lookupCat [("Shows", [⟨"Ep1", "Show A", 1, none⟩, ⟨"Ep2", "Show A", 2, none⟩,
        ⟨"Ep0", "Show A", 0, none⟩])] "Shows" = some es2 ∧
      seriesDense (es2.filter
        (fun x => x.series = (⟨"Ep0", "Show A", 0, none⟩ : MediaEntry).series))) ∧
    catalogInvariants [("Shows", [⟨"Ep1", "Show A", 1, none⟩, ⟨"Ep2", "Show A", 2, none⟩,
        ⟨"Ep0", "Show A", 0, none⟩])] :=
  c1_insert_dense_invariants
    [("Shows", [⟨"Ep1", "Show A", 0, none⟩, ⟨"Ep2", "Show A", 1, none⟩])]
    "Shows" "Show A" false (some ⟨"", "Ep0", ""⟩) none none (some "At the start")
    (by decide) (fun v h => Option.noConfusion h)
    "Shows" ⟨"Ep0", "Show A", 0, none⟩
    [("Shows", [⟨"Ep1", "Show A", 1, none⟩, ⟨"Ep2", "Show A", 2, none⟩,
      ⟨"Ep0", "Show A", 0, none⟩])]
    (by decide)
